import Mathlib

/-!
# tcping: `ping/ping.go`

A shallow embedding of `ping.go` (package `ping`): the `Protocol` enumeration with
`Protocol.String` and `NewProtocol`, the `Result` accessors `Avg`, `Failed` and `String`, and
`CheckURI` together with the part of Go's `regexp` package that `CheckURI` relies on.  The
fold of probe outcomes into a `Result`, which `ping.go` does not contain, is modelled from
the specification.

Go's `regexp` matches with leftmost-first semantics: among the matches that start at the
leftmost position it returns the one a backtracking search finds first.  The matcher `run`
below is that backtracking search written as a list of successes: the results are listed in
the order a backtracking search would reach them, so the first one is Go's match.

Conventions.  Go `string` is `String` (the pattern `reExp` only names ASCII characters, a
character outside ASCII matches no part of it).  Go `int` and `time.Duration` are `Int`, with
the 64-bit range made explicit where an operation can leave it.
`float64` arithmetic, the verb `%0.2f` and `time.Duration.String` are parameters (`GoFmt`).
-/

namespace Ping

/-! ## The regular expressions of `regexp/syntax` that `reExp` uses -/

/-- Abstract syntax of the regular expressions occurring in `reExp`. -/
inductive Regex where
  /-- the empty regular expression -/
  | eps : Regex
  /-- a literal character -/
  | lit : Char → Regex
  /-- a character class `[...]`, as its list of inclusive ranges -/
  | cls : List (Char × Char) → Regex
  /-- concatenation -/
  | seq : Regex → Regex → Regex
  /-- alternation `a|b`, preferring `a` -/
  | alt : Regex → Regex → Regex
  /-- greedy `a?` -/
  | opt : Regex → Regex
  /-- greedy `a*` -/
  | star : Regex → Regex
  /-- capturing group number `n` -/
  | group : Nat → Regex → Regex
  /-- the closing `$` (no `m` flag: end of text only) -/
  | eot : Regex

namespace Regex

/-- Concatenation of a list of expressions. -/
def cat : List Regex → Regex
  | [] => eps
  | [a] => a
  | a :: as => seq a (cat as)

/-- Alternation of a list of expressions, earlier ones preferred. -/
def alts : List Regex → Regex
  | [] => eps
  | [a] => a
  | a :: as => alt a (alts as)

/-- A literal string. -/
def str (s : String) : Regex := cat (s.toList.map lit)

/-- Greedy `a+`. -/
def plus (a : Regex) : Regex := seq a (star a)

/-- Counted repetition `a{n}`. -/
def rep : Nat → Regex → Regex
  | 0, _ => eps
  | 1, a => a
  | n + 2, a => seq a (rep (n + 1) a)

/-- Counted repetition `a{n,}`. -/
def atLeast (n : Nat) (a : Regex) : Regex := seq (rep n a) (star a)

end Regex

/-- Captures recorded by a thread, in the order the groups were closed. -/
abbrev Binds := List (Nat × List Char)

/-- A successful thread: the input that remains and the captures recorded on the way. -/
abbrev Thread := List Char × Binds

/-- Membership of a character in a class given by inclusive ranges. -/
def inRanges (rs : List (Char × Char)) (c : Char) : Bool :=
  rs.any fun r => Nat.ble r.1.toNat c.toNat && Nat.ble c.toNat r.2.toNat

/-- Greedy iteration of `step`: one more round first, stopping as the last resort.  A round
that consumes nothing is cut (no body under `*` or `+` in `reExp` can match the empty
string), so `fuel = inp.length` rounds always suffice. -/
def starAux (step : List Char → List Thread) : Nat → List Char → List Thread
  | 0, inp => [(inp, [])]
  | fuel + 1, inp =>
    ((step inp).flatMap fun t1 =>
      if t1.1.length < inp.length then
        (starAux step fuel t1.1).map fun t2 => (t2.1, t1.2 ++ t2.2)
      else []) ++ [(inp, [])]

/-- Backtracking search: all the ways `re` matches a prefix of `inp`, in the order the
search tries them. -/
def run : Regex → List Char → List Thread
  | .eps, inp => [(inp, [])]
  | .lit c, inp =>
    match inp with
    | x :: t => if x = c then [(t, [])] else []
    | [] => []
  | .cls rs, inp =>
    match inp with
    | x :: t => if inRanges rs x then [(t, [])] else []
    | [] => []
  | .seq a b, inp =>
    (run a inp).flatMap fun t1 => (run b t1.1).map fun t2 => (t2.1, t1.2 ++ t2.2)
  | .alt a b, inp => run a inp ++ run b inp
  | .opt a, inp => run a inp ++ [(inp, [])]
  | .star a, inp => starAux (run a) inp.length inp
  | .group n a, inp =>
    (run a inp).map fun t1 => (t1.1, t1.2 ++ [(n, inp.take (inp.length - t1.1.length))])
  | .eot, inp => if inp.isEmpty then [(inp, [])] else []

/-- The text last captured by group `n`, if the group took part in the match. -/
def capture (n : Nat) : Binds → Option (List Char)
  | [] => none
  | (m, t) :: rest =>
    match capture n rest with
    | some x => some x
    | none => if m = n then some t else none

/-- Method `Regexp.FindStringSubmatch` for a pattern that opens with `^`: the search can
only succeed from offset 0.  The result is the empty slice when there is no match, and otherwise
the whole match followed by the text of each of the `numSubexp` groups (`""` for a group
that took no part). -/
def FindStringSubmatch (re : Regex) (numSubexp : Nat) (s : String) : List String :=
  match (run re s.toList).head? with
  | none => []
  | some t =>
    (List.range (numSubexp + 1)).map fun i =>
      if i = 0 then String.mk (s.toList.take (s.toList.length - t.1.length))
      else String.mk ((capture i t.2).getD [])

/-! ## The pattern of `CheckURI` -/

open Regex

/-- The class `[0-9]`, also written `\d`. -/
def digit : Regex := cls [('0', '9')]

/-- The alternatives `25[0-5]|2[0-4][0-9]|[0-1]{1}[0-9]{2}|[1-9]{1}[0-9]{1}` shared by the
four octet groups 12 to 15. -/
def octetHead : List Regex :=
  [cat [str "25", cls [('0', '5')]],
   cat [lit '2', cls [('0', '4')], digit],
   cat [rep 1 (cls [('0', '1')]), rep 2 digit],
   cat [rep 1 (cls [('1', '9')]), rep 1 digit]]

/-- Group 1: `((?P<schema>((ht|f)tp(s?))|tcp)\://)`. -/
def schemaRe : Regex :=
  group 1 (cat
    [group 2 (alt
      (group 3 (cat [group 4 (alt (str "ht") (lit 'f')), str "tp", group 5 (opt (lit 's'))]))
      (str "tcp")),
     str "://"])

/-- Group 7: `(([a-zA-Z0-9_\-]+\.)+[a-zA-Z]{2,})`. -/
def nameRe : Regex :=
  group 7 (cat
    [plus (group 8 (cat
      [plus (cls [('a', 'z'), ('A', 'Z'), ('0', '9'), ('_', '_'), ('-', '-')]), lit '.'])),
     atLeast 2 (cls [('a', 'z'), ('A', 'Z')])])

/-- Group 9: `((?:(?:25[0-5]|2[0-4]\d|[01]\d\d|\d?\d)((\.?\d)\.)){4})`. -/
def quadRe : Regex :=
  group 9 (rep 4 (cat
    [alts [cat [str "25", cls [('0', '5')]],
           cat [lit '2', cls [('0', '4')], digit],
           cat [cls [('0', '1')], digit, digit],
           cat [opt digit, digit]],
     group 10 (cat [group 11 (cat [opt (lit '.'), digit]), lit '.'])]))

/-- Groups 12 to 15, separated by dots. -/
def ipv4Re : Regex :=
  cat [group 12 (alts (octetHead ++ [cls [('1', '9')]])), lit '.',
       group 13 (alts (octetHead ++ [cls [('1', '9')], lit '0'])), lit '.',
       group 14 (alts (octetHead ++ [cls [('1', '9')], lit '0'])), lit '.',
       group 15 (alts (octetHead ++ [digit]))]

/-- Group 6, the host: a name, or group 9, or a dotted quad. -/
def hostRe : Regex := group 6 (alts [nameRe, quadRe, ipv4Re])

/-- Group 16: `(:([0-9]+))`. -/
def portRe : Regex := group 16 (cat [lit ':', group 17 (plus digit)])

/-- Group 18: `(/[a-zA-Z0-9\-\._\?\,\'/\\\+&amp;%\$#\=~]*)`; characters 39 and 92 are the
apostrophe and the backslash. -/
def pathRe : Regex :=
  group 18 (cat [lit '/', star (cls
    [('a', 'z'), ('A', 'Z'), ('0', '9'), ('-', '-'), ('.', '.'), ('_', '_'), ('?', '?'),
     (',', ','), (Char.ofNat 39, Char.ofNat 39), ('/', '/'), (Char.ofNat 92, Char.ofNat 92),
     ('+', '+'), ('&', '&'), ('a', 'a'),
     ('m', 'm'), ('p', 'p'), (';', ';'), ('%', '%'), ('$', '$'), ('#', '#'), ('=', '='),
     ('~', '~')])])

/-- The constant `reExp` of `CheckURI`, after its opening `^`. -/
def reExp : Regex := cat [opt schemaRe, hostRe, opt portRe, opt pathRe, eot]

/-! ## `Protocol` -/

/-- Go: `type Protocol int`. -/
abbrev Protocol := Int

/-- Constant `TCP` (`iota` 0). -/
def TCP : Protocol := 0

/-- Constant `HTTP` (`iota` 1). -/
def HTTP : Protocol := 1

/-- Constant `HTTPS` (`iota` 2). -/
def HTTPS : Protocol := 2

/-- Method `Protocol.String`. -/
def Protocol.String (protocol : Protocol) : String :=
  if protocol = TCP then "tcp"
  else if protocol = HTTP then "http"
  else if protocol = HTTPS then "https"
  else "unkown"

/-- Go: `unicode.ToLower`.  Inside ASCII only `A` to `Z` move; outside ASCII the mapping is
the Unicode case table `tbl`, which is not part of this repository and stays a parameter. -/
def toLowerRune (tbl : Char → Char) (c : Char) : Char :=
  if c.toNat ≤ 127 then
    if 'A'.toNat ≤ c.toNat ∧ c.toNat ≤ 'Z'.toNat then Char.ofNat (c.toNat + 32) else c
  else tbl c

/-- Go: `strings.ToLower`, which maps `unicode.ToLower` over the runes of the string. -/
def ToLower (tbl : Char → Char) (s : String) : String :=
  String.mk (s.toList.map (toLowerRune tbl))

/-- Function `NewProtocol`; the error is `fmt.Errorf("protocol %s not support", protocol)`. -/
def NewProtocol (tbl : Char → Char) (protocol : String) : Except String Protocol :=
  let l := ToLower tbl protocol
  if l = Protocol.String TCP then .ok TCP
  else if l = Protocol.String HTTP then .ok HTTP
  else if l = Protocol.String HTTPS then .ok HTTPS
  else .error ("protocol " ++ protocol ++ " not support")

/-! ## `Target` and `Result` -/

/-- Struct `Target` (Go `int` and `time.Duration` fields are integers). -/
structure Target where
  Protocol : Protocol
  Host : String
  Port : Int
  Remote : String
  Counter : Int
  Interval : Int
  Timeout : Int

/-- Struct `Result`; the pointer field `Target` may be nil. -/
structure Result where
  Counter : Int
  SuccessCounter : Int
  Target : Option Target
  TTLStr : String
  MinDuration : Int
  MaxDuration : Int
  TotalDuration : Int

/-- The value of an integer as a Go `int64` (two's complement wrap-around). -/
def wrapInt64 (x : Int) : Int := (x + 2 ^ 63) % 2 ^ 64 - 2 ^ 63

/-- Go's `/` on `int64`: the quotient truncated toward zero, wrapped to 64 bits; a zero
divisor is a run-time panic, here `none`. -/
def divInt64 (a b : Int) : Option Int :=
  if b = 0 then none else some (wrapInt64 (Int.tdiv a b))

/-- Method `Result.Avg`. -/
def Result.Avg (result : Result) : Option Int :=
  if result.SuccessCounter = 0 then some 0
  else divInt64 result.TotalDuration result.SuccessCounter

/-! ## Rendering a `Result` -/

/-- The parts of the Go library that `Failed` and `String` call and that are kept as
parameters: `float64` with the conversion from `int`, `*`, `/` and the verb `%0.2f` of
`fmt.Sprintf`, and `time.Duration.String`. -/
structure GoFmt where
  Float64 : Type
  ofInt : Int → Float64
  mul : Float64 → Float64 → Float64
  div : Float64 → Float64 → Float64
  sprintf2f : Float64 → String
  duration : Int → String

/-- Go: how `fmt` prints an `int` (`%d`, and `fmt.Sprint` inside the template). -/
def formatInt (i : Int) : String := toString i

/-- Method `Target.String`: `fmt.Sprintf("%s:%d", target.Host, target.Port)`. -/
def Target.String (target : Target) : String := target.Host ++ ":" ++ formatInt target.Port

/-- Method `Result.Failed`; the subtraction is on `int`, the rest on `float64`. -/
def Result.Failed (P : GoFmt) (result : Result) : String :=
  P.sprintf2f (P.div (P.mul (P.ofInt (wrapInt64 (result.Counter - result.SuccessCounter)))
    (P.ofInt 100)) (P.ofInt result.Counter)) ++ "%"

/-- Go: the replacement table of the HTML escaper of `html/template`, one rune at a time;
characters 0, 34 and 39 are NUL, the double quote and the apostrophe. -/
def htmlEscapeRune (c : Char) : List Char :=
  if c = Char.ofNat 0 then [Char.ofNat 65533]
  else if c = Char.ofNat 34 then "&#34;".toList
  else if c = '&' then "&amp;".toList
  else if c = Char.ofNat 39 then "&#39;".toList
  else if c = '+' then "&#43;".toList
  else if c = '<' then "&lt;".toList
  else if c = '>' then "&gt;".toList
  else [c]

/-- Go: what `html/template` writes for an action `{{...}}` in text context, given the
string `fmt.Sprint` makes of the value. -/
def htmlEscape (s : String) : String := String.mk (s.toList.flatMap htmlEscapeRune)

/-- The text of `{{.Target}}` before escaping: `Target.String` through the pointer, and
what `fmt` prints for a nil pointer whose `String` method cannot run. -/
def targetText : Option Target → String
  | some target => target.String
  | none => "<nil>"

/-- The output of `t.Execute(res, result)` for the template `resultTpl` of `Result.String`:
the template text with each action replaced by its escaped value.  Should `Avg` fail, the
execution stops there and the buffer keeps what was written. -/
def Result.render (P : GoFmt) (result : Result) : String :=
  let head := "--- " ++ htmlEscape (targetText result.Target) ++ " ping statistics ---\n" ++
    htmlEscape (formatInt result.Counter) ++ " responses, " ++
    htmlEscape (formatInt result.SuccessCounter) ++ " ok, " ++
    htmlEscape (result.Failed P) ++ " failed\nround-reip mim/avg/max = " ++
    htmlEscape (P.duration result.MinDuration) ++ "/"
  match result.Avg with
  | none => head
  | some avg => head ++ htmlEscape (P.duration avg) ++ "/" ++
      htmlEscape (P.duration result.MaxDuration)

/-- Method `Result.String`. -/
def Result.String (P : GoFmt) (result : Result) : String :=
  result.TTLStr ++ result.render P

/-! ## Folding probe outcomes -/

/-- Modelled from the spec: the outcome of one probe that `Fold` takes (section 4.2),
`{success, elapsed, diagnostic}`; `ping.go` has no such type. -/
structure Outcome where
  success : Bool
  elapsed : Int
  diagnostic : Option String

/-- Modelled from the spec: the `Fold` operation of the Result Aggregator (section 4.2),
which `ping.go` does not contain.  It increments `counter` unconditionally; on success it
increments `successCounter`, adds `elapsed` to `totalDuration`, updates `minDuration` and
`maxDuration` (the first success initializes both to `elapsed`), and overwrites the
diagnostic tag if a non-empty diagnostic is supplied. -/
def Fold (result : Result) (outcome : Outcome) : Result :=
  if outcome.success then
    { Counter := result.Counter + 1
      SuccessCounter := result.SuccessCounter + 1
      Target := result.Target
      TTLStr :=
        match outcome.diagnostic with
        | some d => if d = "" then result.TTLStr else d
        | none => result.TTLStr
      MinDuration :=
        if result.SuccessCounter = 0 then outcome.elapsed
        else min result.MinDuration outcome.elapsed
      MaxDuration :=
        if result.SuccessCounter = 0 then outcome.elapsed
        else max result.MaxDuration outcome.elapsed
      TotalDuration := result.TotalDuration + outcome.elapsed }
  else { result with Counter := result.Counter + 1 }

/-- Modelled from the spec: the zero-valued `Result` of a session that starts. -/
def Result.zero (target : Option Ping.Target) : Result :=
  { Counter := 0, SuccessCounter := 0, Target := target, TTLStr := "", MinDuration := 0,
    MaxDuration := 0, TotalDuration := 0 }

/-! ## `CheckURI` -/

/-- The value of a string of decimal digits, `none` when the string is empty or holds
another character. -/
def digitsValue : List Char → Option Nat
  | [] => none
  | cs => cs.foldl (fun acc c =>
      match acc with
      | none => none
      | some n => if '0'.toNat ≤ c.toNat ∧ c.toNat ≤ '9'.toNat then some (n * 10 + (c.toNat - 48))
                  else none) (some 0)

/-- Go: the value returned by `strconv.Atoi` on a platform with 64-bit `int` (the error, which
`CheckURI` drops, is left out): 0 on a syntax error, and the nearest bound of `int64` when
the number is out of range. -/
def Atoi (s : String) : Int :=
  match s.toList with
  | '-' :: t =>
    match digitsValue t with
    | none => 0
    | some n => if n > 2 ^ 63 then -(2 ^ 63) else -(n : Int)
  | '+' :: t =>
    match digitsValue t with
    | none => 0
    | some n => if n ≥ 2 ^ 63 then 2 ^ 63 - 1 else (n : Int)
  | cs =>
    match digitsValue cs with
    | none => 0
    | some n => if n ≥ 2 ^ 63 then 2 ^ 63 - 1 else (n : Int)

/-- The four results of `CheckURI`. -/
structure URI where
  schema : String
  host : String
  port : Int
  matched : Bool
  deriving DecidableEq, Repr

/-- Function `CheckURI`. -/
def CheckURI (uri : String) : URI :=
  let res := FindStringSubmatch reExp 18 uri
  if res.length = 0 then
    { schema := "", host := "", port := 0, matched := false }
  else
    let schema := res.getD 2 ""
    let schema := if schema = "" then "tcp" else schema
    let host := res.getD 6 ""
    let port : Int :=
      if res.getD 17 "" = "" then
        if schema = Protocol.String HTTPS then 443 else 80
      else Atoi (res.getD 17 "")
    { schema := schema, host := host, port := port, matched := true }

/-! ## Notions used to state and prove the properties -/

/-- The characters that some leaf of the expression accepts. -/
def Regex.accepts : Regex → Char → Bool
  | .eps, _ => false
  | .eot, _ => false
  | .lit c, x => decide (x = c)
  | .cls rs, x => inRanges rs x
  | .seq a b, x => a.accepts x || b.accepts x
  | .alt a b, x => a.accepts x || b.accepts x
  | .opt a, x => a.accepts x
  | .star a, x => a.accepts x
  | .group _ a, x => a.accepts x

/-- The numbers of the capturing groups of the expression. -/
def Regex.groups : Regex → List Nat
  | .eps => []
  | .eot => []
  | .lit _ => []
  | .cls _ => []
  | .seq a b => a.groups ++ b.groups
  | .alt a b => a.groups ++ b.groups
  | .opt a => a.groups
  | .star a => a.groups
  | .group n a => n :: a.groups

/-- The expression has no `$` inside. -/
def Regex.noEot : Regex → Bool
  | .eps => true
  | .eot => false
  | .lit _ => true
  | .cls _ => true
  | .seq a b => a.noEot && b.noEot
  | .alt a b => a.noEot && b.noEot
  | .opt a => a.noEot
  | .star a => a.noEot
  | .group _ a => a.noEot

/-- What it means for thread `t` to be a sound result on `inp`: the input splits into a
consumed part, made of characters in `P`, and the rest, and the captures come from `G`. -/
def Sound (P : Char → Bool) (G : List Nat) (inp : List Char) (t : Thread) : Prop :=
  ∃ c, inp = c ++ t.1 ∧ (∀ x ∈ c, P x = true) ∧ ∀ p ∈ t.2, p.1 ∈ G

/-- Some thread of `r` on `inp` leaves `rest`. -/
def Consumes (r : Regex) (inp rest : List Char) : Prop := ∃ b, (rest, b) ∈ run r inp

/-- The scheme names the pattern admits. -/
def schemes : List (List Char) :=
  ["http".toList, "https".toList, "ftp".toList, "ftps".toList, "tcp".toList]

/-- The input `inp` splits into scheme prefix, host, port part and path as the pattern
prescribes, with captures `b` for groups 2, 6 and 17. -/
def Parts (inp : List Char) (b : Binds) (pre hst prt pth : List Char) : Prop :=
  inp = pre ++ (hst ++ (prt ++ pth)) ∧
  (pre = [] ∧ capture 2 b = none ∨
    ∃ sch ∈ schemes, pre = sch ++ [':', '/', '/'] ∧ capture 2 b = some sch) ∧
  capture 6 b = some hst ∧ (∀ x ∈ hst, hostRe.accepts x = true) ∧
  Consumes hostRe (hst ++ (prt ++ pth)) (prt ++ pth) ∧
  (prt = [] ∧ capture 17 b = none ∨
    ∃ d ds, prt = ':' :: d :: ds ∧ (∀ x ∈ d :: ds, digit.accepts x = true) ∧
      capture 17 b = some (d :: ds)) ∧
  (pth = [] ∨ ∃ p, pth = '/' :: p ∧ ∀ x ∈ p, pathRe.accepts x = true)

/-- The text of group `n` as `FindStringSubmatch` reports it. -/
def groupText (n : Nat) (b : Binds) : String := String.mk ((capture n b).getD [])

/-- Some colon of the text is immediately followed by a character in `P`. -/
def colonThen (P : Char → Bool) : List Char → Bool
  | [] => false
  | c :: t => (c == ':' && t.head?.any P) || colonThen P t

/-- The number a string of decimal digits denotes. -/
def decimalValue (cs : List Char) : Nat := cs.foldl (fun n c => n * 10 + (c.toNat - 48)) 0

/-- Some colon of the address is immediately followed by a decimal digit. -/
def hasPortPart (uri : String) : Bool := colonThen (inRanges [('0', '9')]) uri.toList

/-- The report as the specification words it, for a result whose tag is empty, each field
rendered as the template renders it: three lines, the last one labelled
`round-trip min/avg/max`. -/
def reportShape (P : GoFmt) (result : Result) : String :=
  "--- " ++ htmlEscape (targetText result.Target) ++ " ping statistics ---\n" ++
    htmlEscape (formatInt result.Counter) ++ " responses, " ++
    htmlEscape (formatInt result.SuccessCounter) ++ " ok, " ++
    htmlEscape (result.Failed P) ++ " failed\nround-trip min/avg/max = " ++
    htmlEscape (P.duration result.MinDuration) ++ "/" ++
    htmlEscape (P.duration ((result.Avg).getD 0)) ++ "/" ++
    htmlEscape (P.duration result.MaxDuration)

/-- Every match of the expression consumes the character `c` at least once. -/
def Regex.forces (c : Char) : Regex → Bool
  | .eps => false
  | .eot => false
  | .lit x => decide (x = c)
  | .cls _ => false
  | .seq a b => a.forces c || b.forces c
  | .alt a b => a.forces c && b.forces c
  | .opt _ => false
  | .star _ => false
  | .group _ a => a.forces c

/-- Every match of the expression ends with the character `c`. -/
def Regex.endsWith (c : Char) : Regex → Bool
  | .eps => false
  | .eot => false
  | .lit x => decide (x = c)
  | .cls _ => false
  | .seq _ b => b.endsWith c
  | .alt a b => a.endsWith c && b.endsWith c
  | .opt _ => false
  | .star _ => false
  | .group _ a => a.endsWith c

/-- The class of the path group, `[a-zA-Z0-9\-\._\?\,\'/\\\+&amp;%\$#\=~]`. -/
def pathClass : List (Char × Char) :=
  [('a', 'z'), ('A', 'Z'), ('0', '9'), ('-', '-'), ('.', '.'), ('_', '_'), ('?', '?'),
   (',', ','), (Char.ofNat 39, Char.ofNat 39), ('/', '/'), (Char.ofNat 92, Char.ofNat 92),
   ('+', '+'), ('&', '&'), ('a', 'a'), ('m', 'm'), ('p', 'p'), (';', ';'), ('%', '%'),
   ('$', '$'), ('#', '#'), ('=', '='), ('~', '~')]

/-- The shape of an address, captures aside: scheme part, host, port part and path. -/
def Shape (inp pre hst prt pth : List Char) : Prop :=
  inp = pre ++ (hst ++ (prt ++ pth)) ∧
  (pre = [] ∨ ∃ sch ∈ schemes, pre = sch ++ [':', '/', '/']) ∧
  (∀ x ∈ hst, x ≠ ':' ∧ x ≠ '/') ∧
  (prt = [] ∨ ∃ d ds, prt = ':' :: d :: ds ∧ ∀ x ∈ d :: ds, inRanges [('0', '9')] x = true) ∧
  (pth = [] ∨ ∃ p, pth = '/' :: p ∧ ∀ x ∈ p, x ≠ ':')

/-- The text after the first `://`, if there is one. -/
def afterScheme : List Char → Option (List Char)
  | [] => none
  | c :: t => if c = ':' ∧ t.take 2 = ['/', '/'] then some (t.drop 2) else afterScheme t

/-- The host part of an address: what follows the scheme separator `://` (the whole
address when there is none), up to the first colon or slash. -/
def hostPart (uri : String) : List Char :=
  ((afterScheme uri.toList).getD uri.toList).takeWhile fun c => c != ':' && c != '/'

/-- The class of the labels of a name in the pattern, `[a-zA-Z0-9_\-]`. -/
def labelClass : List (Char × Char) :=
  [('a', 'z'), ('A', 'Z'), ('0', '9'), ('_', '_'), ('-', '-')]

/-- Alphanumerics and the hyphen, the label characters the specification names. -/
def alnumHyphen : List (Char × Char) := [('a', 'z'), ('A', 'Z'), ('0', '9'), ('-', '-')]

/-- A dotted name: one or more non-empty labels of characters in `L`, each followed by a
dot, then a final label of at least two letters. -/
def DottedName (L : List (Char × Char)) (h : List Char) : Prop :=
  ∃ (labels : List (List Char)) (last : List Char),
    labels ≠ [] ∧ (∀ l ∈ labels, l ≠ [] ∧ ∀ c ∈ l, inRanges L c = true) ∧
    2 ≤ last.length ∧ (∀ c ∈ last, inRanges [('a', 'z'), ('A', 'Z')] c = true) ∧
    h = labels.flatMap (fun l => l ++ ['.']) ++ last

/-- A decimal octet: a non-empty string of digits that denotes a number in 0..255. -/
def Octet (o : List Char) : Prop :=
  o ≠ [] ∧ (∀ c ∈ o, inRanges [('0', '9')] c = true) ∧ decimalValue o ≤ 255

/-- A dotted quad: four decimal octets separated by single dots. -/
def DottedQuad (h : List Char) : Prop :=
  ∃ a b c d, Octet a ∧ Octet b ∧ Octet c ∧ Octet d ∧
    h = a ++ '.' :: (b ++ '.' :: (c ++ '.' :: d))

set_option maxRecDepth 100000

/-! ## Membership in the results of `run` -/

theorem mem_run_eps {inp : List Char} {t : Thread} :
    t ∈ run .eps inp ↔ t = (inp, []) := by
  simp [run]

theorem mem_run_eot {inp : List Char} {t : Thread} :
    t ∈ run .eot inp ↔ inp = [] ∧ t = ([], []) := by
  cases inp <;> simp [run]

theorem mem_run_lit {c : Char} {inp : List Char} {t : Thread} :
    t ∈ run (.lit c) inp ↔ inp = c :: t.1 ∧ t.2 = [] := by
  rcases t with ⟨r, b⟩
  cases inp with
  | nil => simp [run]
  | cons x xs =>
    by_cases h : x = c
    · simp [run, h, eq_comm]
    · simp [run, h]

theorem mem_run_cls {rs : List (Char × Char)} {inp : List Char} {t : Thread} :
    t ∈ run (.cls rs) inp ↔ ∃ x, inRanges rs x = true ∧ inp = x :: t.1 ∧ t.2 = [] := by
  rcases t with ⟨r, b⟩
  cases inp with
  | nil => simp [run]
  | cons x xs =>
    by_cases h : inRanges rs x = true
    · simp [run, h]
      constructor
      · rintro ⟨rfl, rfl⟩; exact ⟨x, h, ⟨rfl, rfl⟩, rfl⟩
      · rintro ⟨y, _, ⟨rfl, rfl⟩, rfl⟩; exact ⟨rfl, rfl⟩
    · simp [run, h]
      rintro y hy rfl
      exact absurd hy h

theorem mem_run_seq {a b : Regex} {inp : List Char} {t : Thread} :
    t ∈ run (.seq a b) inp ↔
      ∃ t1 ∈ run a inp, ∃ t2 ∈ run b t1.1, t = (t2.1, t1.2 ++ t2.2) := by
  simp only [run, List.mem_flatMap, List.mem_map]
  constructor
  · rintro ⟨t1, h1, t2, h2, rfl⟩; exact ⟨t1, h1, t2, h2, rfl⟩
  · rintro ⟨t1, h1, t2, h2, rfl⟩; exact ⟨t1, h1, t2, h2, rfl⟩

theorem mem_run_alt {a b : Regex} {inp : List Char} {t : Thread} :
    t ∈ run (.alt a b) inp ↔ t ∈ run a inp ∨ t ∈ run b inp := by
  simp [run]

theorem mem_run_opt {a : Regex} {inp : List Char} {t : Thread} :
    t ∈ run (.opt a) inp ↔ t ∈ run a inp ∨ t = (inp, []) := by
  simp [run]

theorem mem_run_group {n : Nat} {a : Regex} {inp : List Char} {t : Thread} :
    t ∈ run (.group n a) inp ↔
      ∃ t1 ∈ run a inp, t = (t1.1, t1.2 ++ [(n, inp.take (inp.length - t1.1.length))]) := by
  simp only [run, List.mem_map]
  constructor
  · rintro ⟨t1, h1, rfl⟩; exact ⟨t1, h1, rfl⟩
  · rintro ⟨t1, h1, rfl⟩; exact ⟨t1, h1, rfl⟩

theorem mem_starAux_zero {step : List Char → List Thread} {inp : List Char} {t : Thread} :
    t ∈ starAux step 0 inp ↔ t = (inp, []) := by
  simp [starAux]

theorem mem_starAux_succ {step : List Char → List Thread} {fuel : Nat} {inp : List Char}
    {t : Thread} :
    t ∈ starAux step (fuel + 1) inp ↔
      (∃ t1 ∈ step inp, t1.1.length < inp.length ∧
        ∃ t2 ∈ starAux step fuel t1.1, t = (t2.1, t1.2 ++ t2.2)) ∨ t = (inp, []) := by
  simp only [starAux, List.mem_append, List.mem_flatMap, List.mem_singleton]
  constructor
  · rintro (⟨t1, h1, h⟩ | h)
    · left
      by_cases hl : t1.1.length < inp.length
      · rw [if_pos hl, List.mem_map] at h
        obtain ⟨t2, h2, rfl⟩ := h
        exact ⟨t1, h1, hl, t2, h2, rfl⟩
      · rw [if_neg hl] at h; simp at h
    · right; exact h
  · rintro (⟨t1, h1, hl, t2, h2, rfl⟩ | h)
    · left
      refine ⟨t1, h1, ?_⟩
      rw [if_pos hl, List.mem_map]
      exact ⟨t2, h2, rfl⟩
    · right; exact h

/-! ## What a thread consumes and records -/

theorem Sound.mono {P Q : Char → Bool} {G H : List Nat} {inp : List Char} {t : Thread}
    (h : Sound P G inp t) (hP : ∀ x, P x = true → Q x = true) (hG : ∀ n ∈ G, n ∈ H) :
    Sound Q H inp t := by
  obtain ⟨c, hc, hx, hp⟩ := h
  exact ⟨c, hc, fun x hxc => hP x (hx x hxc), fun p hpt => hG _ (hp p hpt)⟩

theorem Sound.refl (P : Char → Bool) (G : List Nat) (inp : List Char) :
    Sound P G inp (inp, []) :=
  ⟨[], rfl, by simp, by simp⟩

theorem Sound.trans {P : Char → Bool} {G : List Nat} {inp : List Char} {t1 t2 : Thread}
    (h1 : Sound P G inp t1) (h2 : Sound P G t1.1 t2) :
    Sound P G inp (t2.1, t1.2 ++ t2.2) := by
  obtain ⟨c1, hc1, hx1, hp1⟩ := h1
  obtain ⟨c2, hc2, hx2, hp2⟩ := h2
  refine ⟨c1 ++ c2, ?_, ?_, ?_⟩
  · rw [hc1, hc2, List.append_assoc]
  · intro x hx
    rcases List.mem_append.1 hx with h | h
    · exact hx1 x h
    · exact hx2 x h
  · intro p hp
    rcases List.mem_append.1 hp with h | h
    · exact hp1 p h
    · exact hp2 p h

theorem starAux_sound {P : Char → Bool} {G : List Nat} {step : List Char → List Thread}
    (hstep : ∀ inp t, t ∈ step inp → Sound P G inp t) :
    ∀ fuel inp t, t ∈ starAux step fuel inp → Sound P G inp t := by
  intro fuel
  induction fuel with
  | zero =>
    intro inp t ht
    rw [mem_starAux_zero] at ht
    subst ht
    exact Sound.refl P G inp
  | succ n ih =>
    intro inp t ht
    rw [mem_starAux_succ] at ht
    rcases ht with ⟨t1, h1, _, t2, h2, rfl⟩ | rfl
    · exact (hstep inp t1 h1).trans (ih t1.1 t2 h2)
    · exact Sound.refl P G inp

theorem run_sound (r : Regex) :
    ∀ inp t, t ∈ run r inp → Sound r.accepts r.groups inp t := by
  induction r with
  | eps =>
    intro inp t ht
    rw [mem_run_eps] at ht; subst ht
    exact Sound.refl _ _ inp
  | eot =>
    intro inp t ht
    rw [mem_run_eot] at ht
    obtain ⟨rfl, rfl⟩ := ht
    exact Sound.refl _ _ []
  | lit c =>
    intro inp t ht
    rw [mem_run_lit] at ht
    obtain ⟨h1, h2⟩ := ht
    exact ⟨[c], by simp [h1], by simp [Regex.accepts], by simp [h2]⟩
  | cls rs =>
    intro inp t ht
    rw [mem_run_cls] at ht
    obtain ⟨x, hx, h1, h2⟩ := ht
    exact ⟨[x], by simp [h1], by simp [Regex.accepts, hx], by simp [h2]⟩
  | seq a b iha ihb =>
    intro inp t ht
    rw [mem_run_seq] at ht
    obtain ⟨t1, h1, t2, h2, rfl⟩ := ht
    refine Sound.trans ((iha inp t1 h1).mono ?_ ?_) ((ihb t1.1 t2 h2).mono ?_ ?_) <;>
      simp +contextual [Regex.accepts, Regex.groups]
  | alt a b iha ihb =>
    intro inp t ht
    rw [mem_run_alt] at ht
    rcases ht with h | h
    · refine (iha inp t h).mono ?_ ?_ <;>
        simp +contextual [Regex.accepts, Regex.groups]
    · refine (ihb inp t h).mono ?_ ?_ <;>
        simp +contextual [Regex.accepts, Regex.groups]
  | opt a iha =>
    intro inp t ht
    rw [mem_run_opt] at ht
    rcases ht with h | rfl
    · exact iha inp t h
    · exact Sound.refl _ _ inp
  | star a iha =>
    intro inp t ht
    exact starAux_sound iha inp.length inp t ht
  | group n a iha =>
    intro inp t ht
    rw [mem_run_group] at ht
    obtain ⟨t1, h1, rfl⟩ := ht
    obtain ⟨c, hc, hx, hp⟩ := iha inp t1 h1
    refine ⟨c, hc, hx, ?_⟩
    intro p hp2
    rcases List.mem_append.1 hp2 with h | h
    · exact List.mem_cons_of_mem _ (hp p h)
    · simp at h; subst h; simp [Regex.groups]

/-! ## Captures -/

theorem capture_append (n : Nat) (x y : Binds) :
    capture n (x ++ y) = (capture n y).orElse fun _ => capture n x := by
  induction x with
  | nil => cases h : capture n y <;> simp [capture, h]
  | cons p x ih =>
    obtain ⟨m, c⟩ := p
    cases hy : capture n y with
    | some v => simp [capture, ih, hy]
    | none => simp [capture, ih, hy]

theorem capture_eq_none {n : Nat} {b : Binds} (h : ∀ p ∈ b, p.1 ≠ n) : capture n b = none := by
  induction b with
  | nil => rfl
  | cons p b ih =>
    obtain ⟨m, c⟩ := p
    have h1 : m ≠ n := h (m, c) (List.mem_cons_self _ _)
    have h2 := ih fun p hp => h p (List.mem_cons_of_mem _ hp)
    simp [capture, h2, h1]

theorem capture_of_groups {n : Nat} {G : List Nat} {b : Binds} (hb : ∀ p ∈ b, p.1 ∈ G)
    (hn : n ∉ G) : capture n b = none :=
  capture_eq_none fun p hp h => hn (h ▸ hb p hp)

theorem capture_snoc (n : Nat) (b : Binds) (c : List Char) :
    capture n (b ++ [(n, c)]) = some c := by
  rw [capture_append]; simp [capture]

theorem capture_snoc_ne {n m : Nat} (h : m ≠ n) (b : Binds) (c : List Char) :
    capture n (b ++ [(m, c)]) = capture n b := by
  rw [capture_append]; simp [capture, h]

/-- A capturing group records exactly the text it consumed. -/
theorem run_group_capture {n : Nat} {a : Regex} {inp : List Char} {t : Thread}
    (ht : t ∈ run (.group n a) inp) :
    ∃ c b, (t.1, b) ∈ run a inp ∧ t.2 = b ++ [(n, c)] ∧ inp = c ++ t.1 ∧
      (∀ x ∈ c, a.accepts x = true) ∧ ∀ p ∈ b, p.1 ∈ a.groups := by
  rw [mem_run_group] at ht
  obtain ⟨t1, h1, rfl⟩ := ht
  obtain ⟨c, hc, hx, hp⟩ := run_sound a inp t1 h1
  refine ⟨c, t1.2, h1, ?_, hc, hx, hp⟩
  have : inp.take (inp.length - t1.1.length) = c := by
    rw [hc]; simp
  simp [this]

/-! ## Threads do not look ahead -/

theorem starAux_fuel_mono {step : List Char → List Thread} :
    ∀ n m inp t, n ≤ m → t ∈ starAux step n inp → t ∈ starAux step m inp := by
  intro n
  induction n with
  | zero =>
    intro m inp t _ ht
    rw [mem_starAux_zero] at ht
    cases m with
    | zero => rw [mem_starAux_zero]; exact ht
    | succ m => rw [mem_starAux_succ]; exact Or.inr ht
  | succ n ih =>
    intro m inp t hnm ht
    cases m with
    | zero => omega
    | succ m =>
      rw [mem_starAux_succ] at ht ⊢
      rcases ht with ⟨t1, h1, hl, t2, h2, rfl⟩ | h
      · exact Or.inl ⟨t1, h1, hl, t2, ih m t1.1 t2 (by omega) h2, rfl⟩
      · exact Or.inr h

theorem starAux_append {step : List Char → List Thread} {e : List Char}
    (hstep : ∀ inp t, t ∈ step inp → (t.1 ++ e, t.2) ∈ step (inp ++ e)) :
    ∀ n inp t, t ∈ starAux step n inp → (t.1 ++ e, t.2) ∈ starAux step n (inp ++ e) := by
  intro n
  induction n with
  | zero =>
    intro inp t ht
    rw [mem_starAux_zero] at ht; subst ht
    rw [mem_starAux_zero]
  | succ n ih =>
    intro inp t ht
    rw [mem_starAux_succ] at ht ⊢
    rcases ht with ⟨t1, h1, hl, t2, h2, rfl⟩ | rfl
    · refine Or.inl ⟨(t1.1 ++ e, t1.2), hstep inp t1 h1, ?_, (t2.1 ++ e, t2.2), ih t1.1 t2 h2, rfl⟩
      simp only [List.length_append]; omega
    · exact Or.inr rfl

/-- An expression without `$` matches the same way whatever follows the text it consumes. -/
theorem run_append (r : Regex) (hr : r.noEot = true) (e : List Char) :
    ∀ inp t, t ∈ run r inp → (t.1 ++ e, t.2) ∈ run r (inp ++ e) := by
  induction r with
  | eps =>
    intro inp t ht
    rw [mem_run_eps] at ht; subst ht
    rw [mem_run_eps]
  | eot => simp [Regex.noEot] at hr
  | lit c =>
    intro inp t ht
    rw [mem_run_lit] at ht ⊢
    simp [ht.1, ht.2]
  | cls rs =>
    intro inp t ht
    rw [mem_run_cls] at ht ⊢
    obtain ⟨x, hx, h1, h2⟩ := ht
    exact ⟨x, hx, by simp [h1], h2⟩
  | seq a b iha ihb =>
    simp only [Regex.noEot, Bool.and_eq_true] at hr
    intro inp t ht
    rw [mem_run_seq] at ht ⊢
    obtain ⟨t1, h1, t2, h2, rfl⟩ := ht
    exact ⟨(t1.1 ++ e, t1.2), iha hr.1 inp t1 h1, (t2.1 ++ e, t2.2), ihb hr.2 t1.1 t2 h2, rfl⟩
  | alt a b iha ihb =>
    simp only [Regex.noEot, Bool.and_eq_true] at hr
    intro inp t ht
    rw [mem_run_alt] at ht ⊢
    rcases ht with h | h
    · exact Or.inl (iha hr.1 inp t h)
    · exact Or.inr (ihb hr.2 inp t h)
  | opt a iha =>
    simp only [Regex.noEot] at hr
    intro inp t ht
    rw [mem_run_opt] at ht ⊢
    rcases ht with h | rfl
    · exact Or.inl (iha hr inp t h)
    · exact Or.inr rfl
  | star a iha =>
    simp only [Regex.noEot] at hr
    intro inp t ht
    have h1 := starAux_append (iha hr) inp.length inp t ht
    exact starAux_fuel_mono inp.length (inp ++ e).length _ _ (by simp) h1
  | group n a iha =>
    simp only [Regex.noEot] at hr
    intro inp t ht
    rw [mem_run_group] at ht ⊢
    obtain ⟨t1, h1, rfl⟩ := ht
    refine ⟨(t1.1 ++ e, t1.2), iha hr inp t1 h1, ?_⟩
    obtain ⟨c, hc, -, -⟩ := run_sound a inp t1 h1
    have e1 : inp.take (inp.length - t1.1.length) = c := by rw [hc]; simp
    have e2 : (inp ++ e).take ((inp ++ e).length - (t1.1 ++ e).length) = c := by
      rw [hc]; simp [List.append_assoc]
    simp only [e1, e2]

/-- A starred class consumes any run of characters of the class. -/
theorem run_star_cls {rs : List (Char × Char)} :
    ∀ (ds rest : List Char) (fuel : Nat), ds.length ≤ fuel →
      (∀ x ∈ ds, inRanges rs x = true) →
      (rest, []) ∈ starAux (run (.cls rs)) fuel (ds ++ rest) := by
  intro ds
  induction ds with
  | nil =>
    intro rest fuel _ _
    cases fuel with
    | zero => simp [mem_starAux_zero]
    | succ n => rw [mem_starAux_succ]; exact Or.inr rfl
  | cons x ds ih =>
    intro rest fuel hf hx
    cases fuel with
    | zero => simp at hf
    | succ n =>
      rw [mem_starAux_succ]
      refine Or.inl ⟨(ds ++ rest, []), ?_, by simp, (rest, []), ?_, rfl⟩
      · rw [mem_run_cls]
        exact ⟨x, hx x (List.mem_cons_self _ _), rfl, rfl⟩
      · exact ih rest n (by simpa using hf) fun y hy => hx y (List.mem_cons_of_mem _ hy)

/-! ## The text an expression can consume, captures aside -/

theorem Consumes.of_mem {r : Regex} {inp : List Char} {t : Thread} (h : t ∈ run r inp) :
    Consumes r inp t.1 := ⟨t.2, h⟩

theorem run_groups {r : Regex} {inp : List Char} {t : Thread} (h : t ∈ run r inp) :
    ∀ p ∈ t.2, p.1 ∈ r.groups := by
  obtain ⟨_, -, -, hp⟩ := run_sound r inp t h
  exact hp

theorem Consumes.suffix {r : Regex} {inp rest : List Char} (h : Consumes r inp rest) :
    ∃ c, inp = c ++ rest := by
  obtain ⟨b, hb⟩ := h
  obtain ⟨c, hc, -, -⟩ := run_sound r inp _ hb
  exact ⟨c, hc⟩

theorem consumes_eps {inp rest : List Char} : Consumes .eps inp rest ↔ rest = inp := by
  simp [Consumes, mem_run_eps]

theorem consumes_eot {inp rest : List Char} : Consumes .eot inp rest ↔ inp = [] ∧ rest = [] := by
  simp [Consumes, mem_run_eot]

theorem consumes_lit {c : Char} {inp rest : List Char} :
    Consumes (.lit c) inp rest ↔ inp = c :: rest := by
  simp [Consumes, mem_run_lit]

theorem consumes_cls {rs : List (Char × Char)} {inp rest : List Char} :
    Consumes (.cls rs) inp rest ↔ ∃ x, inRanges rs x = true ∧ inp = x :: rest := by
  simp only [Consumes, mem_run_cls]
  constructor
  · rintro ⟨_, x, hx, h, _⟩; exact ⟨x, hx, h⟩
  · rintro ⟨x, hx, h⟩; exact ⟨[], x, hx, h, rfl⟩

theorem consumes_seq {a b : Regex} {inp rest : List Char} :
    Consumes (.seq a b) inp rest ↔ ∃ mid, Consumes a inp mid ∧ Consumes b mid rest := by
  simp only [Consumes, mem_run_seq]
  constructor
  · rintro ⟨_, t1, h1, t2, h2, h⟩
    simp only [Prod.mk.injEq] at h
    exact ⟨t1.1, ⟨t1.2, h1⟩, t2.2, by rw [h.1]; exact h2⟩
  · rintro ⟨mid, ⟨b1, h1⟩, b2, h2⟩
    exact ⟨b1 ++ b2, (mid, b1), h1, (rest, b2), h2, rfl⟩

theorem consumes_alt {a b : Regex} {inp rest : List Char} :
    Consumes (.alt a b) inp rest ↔ Consumes a inp rest ∨ Consumes b inp rest := by
  simp only [Consumes, mem_run_alt]
  constructor
  · rintro ⟨x, h | h⟩
    · exact Or.inl ⟨x, h⟩
    · exact Or.inr ⟨x, h⟩
  · rintro (⟨x, h⟩ | ⟨x, h⟩)
    · exact ⟨x, Or.inl h⟩
    · exact ⟨x, Or.inr h⟩

theorem consumes_opt {a : Regex} {inp rest : List Char} :
    Consumes (.opt a) inp rest ↔ Consumes a inp rest ∨ rest = inp := by
  simp only [Consumes, mem_run_opt]
  constructor
  · rintro ⟨x, h | h⟩
    · exact Or.inl ⟨x, h⟩
    · simp only [Prod.mk.injEq] at h; exact Or.inr h.1
  · rintro (⟨x, h⟩ | h)
    · exact ⟨x, Or.inl h⟩
    · exact ⟨[], Or.inr (by rw [h])⟩

theorem consumes_group {n : Nat} {a : Regex} {inp rest : List Char} :
    Consumes (.group n a) inp rest ↔ Consumes a inp rest := by
  simp only [Consumes, mem_run_group]
  constructor
  · rintro ⟨_, t1, h1, h⟩
    simp only [Prod.mk.injEq] at h
    exact ⟨t1.2, by rw [h.1]; exact h1⟩
  · rintro ⟨b, h⟩
    exact ⟨_, (rest, b), h, rfl⟩

theorem consumes_schemaName {inp rest : List Char}
    (h : Consumes (alt
      (group 3 (cat [group 4 (alt (str "ht") (lit 'f')), str "tp", group 5 (opt (lit 's'))]))
      (str "tcp")) inp rest) : ∃ sch ∈ schemes, inp = sch ++ rest := by
  simp only [str, String.toList, List.map, cat, consumes_alt, consumes_group, consumes_seq,
    consumes_lit, consumes_opt] at h
  rcases h with ⟨mid, (⟨m1, rfl, rfl⟩ | rfl), m2, ⟨m3, rfl, rfl⟩, (rfl | rfl)⟩ |
    ⟨mid, rfl, m1, rfl, rfl⟩
  · exact ⟨['h', 't', 't', 'p', 's'], by decide, rfl⟩
  · exact ⟨['h', 't', 't', 'p'], by decide, rfl⟩
  · exact ⟨['f', 't', 'p', 's'], by decide, rfl⟩
  · exact ⟨['f', 't', 'p'], by decide, rfl⟩
  · exact ⟨['t', 'c', 'p'], by decide, rfl⟩

/-- A thread of group 1 consumed `sch://` for an admitted scheme `sch`, captured by group 2. -/
theorem run_schemaRe {inp : List Char} {t : Thread} (h : t ∈ run schemaRe inp) :
    ∃ sch ∈ schemes, inp = sch ++ (':' :: '/' :: '/' :: t.1) ∧ capture 2 t.2 = some sch := by
  unfold schemaRe at h
  rw [mem_run_group] at h
  obtain ⟨t1, h1, rfl⟩ := h
  simp only [cat] at h1
  rw [mem_run_seq] at h1
  obtain ⟨ta, ha, tb, hb, rfl⟩ := h1
  obtain ⟨c, b, hX, hb2, hc, -, -⟩ := run_group_capture ha
  obtain ⟨sch, hsch, hinp⟩ := consumes_schemaName ⟨b, hX⟩
  have hcs : c = sch := List.append_cancel_right (hc.symm.trans hinp)
  have htb := Consumes.of_mem hb
  simp only [str, String.toList, List.map, cat, consumes_seq, consumes_lit] at htb
  obtain ⟨m1, h1, m2, h2, h3⟩ := htb
  have hcap : capture 2 tb.2 = none := capture_of_groups (run_groups hb) (by decide)
  refine ⟨sch, hsch, ?_, ?_⟩
  · show inp = sch ++ (':' :: '/' :: '/' :: tb.1)
    rw [hinp, h1, h2, h3]
  · show capture 2 ((ta.2 ++ tb.2) ++ [(1, _)]) = some sch
    rw [capture_snoc_ne (by decide), capture_append, hcap, hb2, capture_snoc, hcs]
    rfl

/-- A thread of the host group consumed a text of host characters, captured by group 6. -/
theorem run_hostRe {inp : List Char} {t : Thread} (h : t ∈ run hostRe inp) :
    ∃ hst, inp = hst ++ t.1 ∧ capture 6 t.2 = some hst ∧
      (∀ x ∈ hst, hostRe.accepts x = true) ∧ ∀ p ∈ t.2, p.1 ∈ hostRe.groups := by
  have hg := run_groups h
  unfold hostRe at h
  obtain ⟨c, b, -, hb, hc, hx, -⟩ := run_group_capture h
  exact ⟨c, hc, by rw [hb, capture_snoc], hx, hg⟩

/-- A thread of the port group consumed a colon and at least one digit; group 17 captured
the digits. -/
theorem run_portRe {inp : List Char} {t : Thread} (h : t ∈ run portRe inp) :
    ∃ d ds, inp = ':' :: d :: ds ++ t.1 ∧ (∀ x ∈ d :: ds, digit.accepts x = true) ∧
      capture 17 t.2 = some (d :: ds) := by
  unfold portRe at h
  rw [mem_run_group] at h
  obtain ⟨t1, h1, rfl⟩ := h
  simp only [cat] at h1
  rw [mem_run_seq] at h1
  obtain ⟨ta, ha, tb, hb, rfl⟩ := h1
  rw [mem_run_lit] at ha
  obtain ⟨c, b, hX, hb2, hc, hx, -⟩ := run_group_capture hb
  have hne : ∃ d ds, c = d :: ds := by
    have := Consumes.of_mem hX
    simp only [plus, digit, consumes_seq, consumes_cls] at this
    obtain ⟨mid, ⟨x, -, hx1⟩, hst⟩ := this
    obtain ⟨c2, hc2⟩ := hst.suffix
    have e : c ++ tb.1 = (x :: c2) ++ tb.1 := by rw [← hc, hx1, hc2]; rfl
    exact ⟨x, c2, List.append_cancel_right e⟩
  obtain ⟨d, ds, rfl⟩ := hne
  refine ⟨d, ds, ?_, ?_, ?_⟩
  · show inp = ':' :: d :: ds ++ tb.1
    rw [ha.1, hc]; rfl
  · intro x hxm
    have := hx x hxm
    simpa [plus, Regex.accepts, digit] using this
  · show capture 17 ((ta.2 ++ tb.2) ++ [(16, _)]) = some (d :: ds)
    rw [capture_snoc_ne (by decide), ha.2, hb2]
    simp [capture_snoc]

/-- A thread of the path group consumed a slash and characters of the path class. -/
theorem run_pathRe {inp : List Char} {t : Thread} (h : t ∈ run pathRe inp) :
    ∃ p, inp = '/' :: p ++ t.1 ∧ (∀ x ∈ p, pathRe.accepts x = true) ∧
      ∀ q ∈ t.2, q.1 ∈ pathRe.groups := by
  have hg := run_groups h
  obtain ⟨c, hc, hx, -⟩ := run_sound _ _ _ h
  have := Consumes.of_mem h
  simp only [pathRe, cat, consumes_group, consumes_seq, consumes_lit] at this
  obtain ⟨mid, hmid, hst⟩ := this
  obtain ⟨c2, hc2⟩ := hst.suffix
  have e : c ++ t.1 = ('/' :: c2) ++ t.1 := by rw [← hc, hmid, hc2]; rfl
  have hcc : c = '/' :: c2 := List.append_cancel_right e
  subst hcc
  exact ⟨c2, hc, fun x hxm => hx x (List.mem_cons_of_mem _ hxm), hg⟩

/-! ## The shape of a matched address -/

/-- Every thread of `reExp` consumed the whole input, which has the shape `Parts`. -/
theorem reExp_parts {inp : List Char} {t : Thread} (h : t ∈ run reExp inp) :
    t.1 = [] ∧ ∃ pre hst prt pth, Parts inp t.2 pre hst prt pth := by
  unfold reExp at h
  simp only [cat] at h
  rw [mem_run_seq] at h
  obtain ⟨t1, h1, u1, hu1, rfl⟩ := h
  have g1 := run_groups hu1
  have k1 := run_groups h1
  rw [mem_run_seq] at hu1
  obtain ⟨t2, h2, u2, hu2, rfl⟩ := hu1
  have g2 := run_groups hu2
  rw [mem_run_seq] at hu2
  obtain ⟨t3, h3, u3, hu3, rfl⟩ := hu2
  have g3 := run_groups hu3
  rw [mem_run_seq] at hu3
  obtain ⟨t4, h4, t5, h5, rfl⟩ := hu3
  rw [mem_run_eot] at h5
  obtain ⟨h5a, rfl⟩ := h5
  obtain ⟨hst, hh1, hh2, hh3, hh4⟩ := run_hostRe h2
  -- the path
  have hpth : ∃ pth, t3.1 = pth ∧ (pth = [] ∨ ∃ p, pth = '/' :: p ∧
      ∀ x ∈ p, pathRe.accepts x = true) := by
    rw [mem_run_opt] at h4
    rcases h4 with h4 | h4
    · obtain ⟨p, hp1, hp2, -⟩ := run_pathRe h4
      exact ⟨'/' :: p, by rw [hp1, h5a]; simp, Or.inr ⟨p, rfl, hp2⟩⟩
    · refine ⟨[], ?_, Or.inl rfl⟩
      rw [h4] at h5a; exact h5a
  obtain ⟨pth, hp1, hp2⟩ := hpth
  -- the port
  have hprt : ∃ prt, t2.1 = prt ++ pth ∧ (prt = [] ∧ capture 17 t3.2 = none ∨
      ∃ d ds, prt = ':' :: d :: ds ∧ (∀ x ∈ d :: ds, digit.accepts x = true) ∧
        capture 17 t3.2 = some (d :: ds)) := by
    rw [mem_run_opt] at h3
    rcases h3 with h3 | h3
    · obtain ⟨d, ds, e1, e2, e3⟩ := run_portRe h3
      exact ⟨':' :: d :: ds, by rw [e1, hp1], Or.inr ⟨d, ds, rfl, e2, e3⟩⟩
    · refine ⟨[], ?_, Or.inl ⟨rfl, ?_⟩⟩
      · rw [h3] at hp1; simpa using hp1
      · rw [h3]; rfl
  obtain ⟨prt, hq1, hq2⟩ := hprt
  -- the scheme
  have hpre : ∃ pre, inp = pre ++ t1.1 ∧ (pre = [] ∧ capture 2 t1.2 = none ∨
      ∃ sch ∈ schemes, pre = sch ++ [':', '/', '/'] ∧ capture 2 t1.2 = some sch) := by
    rw [mem_run_opt] at h1
    rcases h1 with h1 | h1
    · obtain ⟨sch, e1, e2, e3⟩ := run_schemaRe h1
      exact ⟨sch ++ [':', '/', '/'], by rw [e2]; simp, Or.inr ⟨sch, e1, rfl, e3⟩⟩
    · refine ⟨[], by rw [h1]; rfl, Or.inl ⟨rfl, ?_⟩⟩
      rw [h1]; rfl
  obtain ⟨pre, hr1, hr2⟩ := hpre
  refine ⟨rfl, pre, hst, prt, pth, ?_, ?_, ?_, hh3, ?_, ?_, hp2⟩
  · rw [hr1, hh1, hq1]
  · have e : capture 2 (t2.2 ++ (t3.2 ++ (t4.2 ++ []))) = none :=
      capture_of_groups g1 (by decide)
    show (_ ∧ capture 2 (t1.2 ++ (t2.2 ++ (t3.2 ++ (t4.2 ++ [])))) = none) ∨ ∃ sch ∈ schemes,
      _ ∧ capture 2 (t1.2 ++ (t2.2 ++ (t3.2 ++ (t4.2 ++ [])))) = some sch
    rw [capture_append, e]
    exact hr2
  · have e : capture 6 (t3.2 ++ (t4.2 ++ [])) = none := capture_of_groups g2 (by decide)
    show capture 6 (t1.2 ++ (t2.2 ++ (t3.2 ++ (t4.2 ++ [])))) = some hst
    rw [capture_append, capture_append, e]
    simp [hh2]
  · rw [← hq1, ← hh1]
    exact ⟨t2.2, h2⟩
  · have e : capture 17 (t4.2 ++ []) = none := capture_of_groups g3 (by decide)
    have e1 : capture 17 t1.2 = none := capture_of_groups k1 (by decide)
    have e2 : capture 17 t2.2 = none := capture_of_groups hh4 (by decide)
    show (_ ∧ capture 17 (t1.2 ++ (t2.2 ++ (t3.2 ++ (t4.2 ++ [])))) = none) ∨ ∃ d ds,
      _ ∧ _ ∧ capture 17 (t1.2 ++ (t2.2 ++ (t3.2 ++ (t4.2 ++ [])))) = some (d :: ds)
    rw [capture_append, capture_append, capture_append, e, e1, e2]
    rcases hq2 with ⟨q1, q2⟩ | ⟨d, ds, q1, q2, q3⟩
    · exact Or.inl ⟨q1, by simp [q2]⟩
    · exact Or.inr ⟨d, ds, q1, q2, by simp [q3]⟩

/-! ## `CheckURI` in terms of the winning thread -/

theorem FindStringSubmatch_none {re : Regex} {k : Nat} {s : String}
    (h : (run re s.toList).head? = none) : FindStringSubmatch re k s = [] := by
  simp only [FindStringSubmatch, h]

theorem FindStringSubmatch_some {re : Regex} {k : Nat} {s : String} {t : Thread}
    (h : (run re s.toList).head? = some t) :
    (FindStringSubmatch re k s).length = k + 1 ∧
      ∀ i, 0 < i → i ≤ k → (FindStringSubmatch re k s).getD i "" = groupText i t.2 := by
  simp only [FindStringSubmatch, h]
  refine ⟨by simp, ?_⟩
  intro i h0 hk
  have hi : i < k + 1 := by omega
  have h0' : i ≠ 0 := by omega
  simp [List.getD_eq_getElem?_getD, List.getElem?_map, List.getElem?_range hi, h0', groupText]

theorem CheckURI_none {uri : String} (h : (run reExp uri.toList).head? = none) :
    CheckURI uri = { schema := "", host := "", port := 0, matched := false } := by
  simp [CheckURI, FindStringSubmatch_none h]

theorem CheckURI_some {uri : String} {t : Thread} (h : (run reExp uri.toList).head? = some t) :
    CheckURI uri =
      { schema := if groupText 2 t.2 = "" then "tcp" else groupText 2 t.2,
        host := groupText 6 t.2,
        port := if groupText 17 t.2 = "" then
            if (if groupText 2 t.2 = "" then "tcp" else groupText 2 t.2) = "https" then 443 else 80
          else Atoi (groupText 17 t.2),
        matched := true } := by
  obtain ⟨hl, hg⟩ := FindStringSubmatch_some (k := 18) h
  have h2 := hg 2 (by decide) (by decide)
  have h6 := hg 6 (by decide) (by decide)
  have h17 := hg 17 (by decide) (by decide)
  simp only [CheckURI, hl, h2, h6, h17]
  simp [Protocol.String, TCP, HTTP, HTTPS]

theorem CheckURI_matched_iff (uri : String) :
    (CheckURI uri).matched = true ↔ ∃ t, (run reExp uri.toList).head? = some t := by
  cases h : (run reExp uri.toList).head? with
  | none => simp [CheckURI_none h]
  | some t => simp [CheckURI_some h]

/-! ## Colons in an address -/

theorem colonThen_append_right (P : Char → Bool) (a : List Char) {b : List Char}
    (h : colonThen P b = true) : colonThen P (a ++ b) = true := by
  induction a with
  | nil => exact h
  | cons c a ih => simp [colonThen, ih]

theorem colonThen_append_left (P : Char → Bool) {a : List Char} (ha : ∀ x ∈ a, x ≠ ':')
    (b : List Char) : colonThen P (a ++ b) = colonThen P b := by
  induction a with
  | nil => rfl
  | cons c a ih =>
    have hc : c ≠ ':' := ha c (List.mem_cons_self _ _)
    have := ih fun x hx => ha x (List.mem_cons_of_mem _ hx)
    simp [colonThen, hc, this]

theorem colonThen_plain (P : Char → Bool) {a : List Char} (ha : ∀ x ∈ a, x ≠ ':') :
    colonThen P a = false := by
  have := colonThen_append_left P ha []
  simpa [colonThen] using this

theorem colonThen_cons_colon (P : Char → Bool) (d : Char) (t : List Char) :
    colonThen P (':' :: d :: t) = (P d || colonThen P (d :: t)) := by
  simp [colonThen]

theorem colonThen_cons_ne (P : Char → Bool) {c : Char} (hc : c ≠ ':') (t : List Char) :
    colonThen P (c :: t) = colonThen P t := by
  simp [colonThen, hc]

/-- Two decompositions of one text at the first character outside `p` coincide. -/
theorem split_first {p : Char → Prop} :
    ∀ (l1 l2 : List Char) (x y : Char) (r1 r2 : List Char),
      l1 ++ x :: r1 = l2 ++ y :: r2 → (∀ c ∈ l1, p c) → (∀ c ∈ l2, p c) → ¬ p x → ¬ p y →
      l1 = l2 ∧ x = y ∧ r1 = r2 := by
  intro l1
  induction l1 with
  | nil =>
    intro l2 x y r1 r2 h _ h2 hx _
    cases l2 with
    | nil => simp at h; exact ⟨rfl, h.1, h.2⟩
    | cons c l2 =>
      simp at h
      exact absurd (h.1 ▸ h2 c (List.mem_cons_self _ _)) hx
  | cons a l1 ih =>
    intro l2 x y r1 r2 h h1 h2 hx hy
    cases l2 with
    | nil =>
      simp at h
      exact absurd (h.1 ▸ h1 a (List.mem_cons_self _ _)) hy
    | cons c l2 =>
      simp at h
      obtain ⟨e1, e2, e3⟩ := ih l2 x y r1 r2 h.2
        (fun c hc => h1 c (List.mem_cons_of_mem _ hc))
        (fun c hc => h2 c (List.mem_cons_of_mem _ hc)) hx hy
      exact ⟨by rw [h.1, e1], e2, e3⟩

/-- A text of characters in `p` does not reach a character outside `p`. -/
theorem split_first_none {p : Char → Prop} (l1 l2 : List Char) (x : Char) (r1 : List Char)
    (h : l1 ++ x :: r1 = l2) (h2 : ∀ c ∈ l2, p c) (hx : ¬ p x) : False := by
  apply hx
  apply h2
  rw [← h]
  simp

/-- The first colon of a text: either two decompositions agree on it, or the second one
splits later and its left part goes through the first colon. -/
theorem first_colon (l1 l2 r1 r2 : List Char) (h : l1 ++ ':' :: r1 = l2 ++ ':' :: r2)
    (h1 : ∀ c ∈ l1, c ≠ ':') :
    (l1 = l2 ∧ r1 = r2) ∨ ∃ m, l2 = l1 ++ ':' :: m ∧ r1 = m ++ ':' :: r2 := by
  induction l1 generalizing l2 with
  | nil =>
    cases l2 with
    | nil => simp at h; exact Or.inl ⟨rfl, h⟩
    | cons c l2 =>
      simp at h
      exact Or.inr ⟨l2, by rw [h.1]; rfl, h.2⟩
  | cons a l1 ih =>
    cases l2 with
    | nil =>
      simp at h
      exact absurd h.1 (h1 a (List.mem_cons_self _ _))
    | cons c l2 =>
      simp at h
      rcases ih l2 h.2 (fun c hc => h1 c (List.mem_cons_of_mem _ hc)) with ⟨e1, e2⟩ | ⟨m, e1, e2⟩
      · exact Or.inl ⟨by rw [h.1, e1], e2⟩
      · exact Or.inr ⟨m, by rw [h.1, e1]; rfl, e2⟩

/-! ## The characters of the parts -/

theorem host_char {x : Char} (h : hostRe.accepts x = true) : x ≠ ':' ∧ x ≠ '/' := by
  constructor <;> (rintro rfl; revert h; decide)

theorem digit_char {x : Char} (h : digit.accepts x = true) : x ≠ ':' ∧ x ≠ '/' := by
  constructor <;> (rintro rfl; revert h; decide)

theorem path_char {x : Char} (h : pathRe.accepts x = true) : x ≠ ':' := by
  rintro rfl; revert h; decide

theorem scheme_char : ∀ sch ∈ schemes, ∀ x ∈ sch, x ≠ ':' ∧ x ≠ '/' := by decide

theorem digit_accepts (x : Char) :
    digit.accepts x = inRanges [('0', '9')] x := rfl

/-! ## Consequences of the shape for colons -/

theorem Parts.pth_plain {inp : List Char} {b : Binds} {pre hst prt pth : List Char}
    (h : Parts inp b pre hst prt pth) : ∀ x ∈ pth, x ≠ ':' := by
  obtain ⟨-, -, -, -, -, -, hp⟩ := h
  rcases hp with rfl | ⟨p, rfl, hp⟩
  · simp
  · intro x hx
    rcases List.mem_cons.1 hx with rfl | hx
    · decide
    · exact path_char (hp x hx)

theorem Parts.hst_plain {inp : List Char} {b : Binds} {pre hst prt pth : List Char}
    (h : Parts inp b pre hst prt pth) : ∀ x ∈ hst, x ≠ ':' ∧ x ≠ '/' :=
  fun x hx => host_char (h.2.2.2.1 x hx)

/-- After the scheme prefix, a colon is followed by `P` exactly when the port part starts
with a character in `P`. -/
theorem Parts.colonThen_tail {inp : List Char} {b : Binds} {pre hst prt pth : List Char}
    (h : Parts inp b pre hst prt pth) (P : Char → Bool) :
    colonThen P (hst ++ (prt ++ pth)) = (prt.tail.head?.any P) := by
  rw [colonThen_append_left P fun x hx => (h.hst_plain x hx).1]
  have hp := h.pth_plain
  obtain ⟨-, -, -, -, -, hq, -⟩ := h
  rcases hq with ⟨rfl, -⟩ | ⟨d, ds, rfl, hd, -⟩
  · simpa using colonThen_plain P hp
  · have : colonThen P (d :: (ds ++ pth)) = false := by
      apply colonThen_plain
      intro x hx
      rcases List.mem_cons.1 hx with rfl | hx
      · exact (digit_char (hd _ (List.mem_cons_self _ _))).1
      · rcases List.mem_append.1 hx with hx | hx
        · exact (digit_char (hd _ (List.mem_cons_of_mem _ hx))).1
        · exact hp x hx
    simp [colonThen_cons_colon, this]

/-- The whole text, when `P` rejects the slash. -/
theorem Parts.colonThen_eq {inp : List Char} {b : Binds} {pre hst prt pth : List Char}
    (h : Parts inp b pre hst prt pth) (P : Char → Bool) (hP : P '/' = false) :
    colonThen P inp = (prt.tail.head?.any P) := by
  have ht := h.colonThen_tail P
  obtain ⟨hi, hs, -⟩ := h
  rcases hs with ⟨rfl, -⟩ | ⟨sch, hsch, rfl, -⟩
  · rw [hi]; exact ht
  · rw [hi, List.append_assoc,
      colonThen_append_left P fun x hx => (scheme_char sch hsch x hx).1]
    simp only [List.cons_append, List.nil_append]
    rw [colonThen_cons_colon, hP, colonThen_cons_ne P (by decide), colonThen_cons_ne P (by decide)]
    simpa using ht

/-- Group 17 took no part exactly when no colon of the text is followed by a digit. -/
theorem Parts.port_none_iff {inp : List Char} {b : Binds} {pre hst prt pth : List Char}
    (h : Parts inp b pre hst prt pth) :
    capture 17 b = none ↔ colonThen (inRanges [('0', '9')]) inp = false := by
  rw [h.colonThen_eq _ (by decide)]
  obtain ⟨-, -, -, -, -, hq, -⟩ := h
  rcases hq with ⟨rfl, e⟩ | ⟨d, ds, rfl, hd, e⟩
  · simp [e]
  · have := hd d (List.mem_cons_self _ _)
    rw [digit_accepts] at this
    simp [e, this]

/-- Group 2 took no part exactly when no colon of the text is followed by a slash. -/
theorem Parts.scheme_none_iff {inp : List Char} {b : Binds} {pre hst prt pth : List Char}
    (h : Parts inp b pre hst prt pth) :
    capture 2 b = none ↔ colonThen (fun c => c == '/') inp = false := by
  have ht := h.colonThen_tail (fun c => c == '/')
  have hd : prt.tail.head?.any (fun c => c == '/') = false := by
    obtain ⟨-, -, -, -, -, hq, -⟩ := h
    rcases hq with ⟨rfl, -⟩ | ⟨d, ds, rfl, hd, -⟩
    · rfl
    · have := (digit_char (hd d (List.mem_cons_self _ _))).2
      simp [this]
  rw [hd] at ht
  obtain ⟨hi, hs, -⟩ := h
  rcases hs with ⟨rfl, e⟩ | ⟨sch, hsch, rfl, e⟩
  · rw [hi]; simp [e]; exact ht
  · rw [hi, List.append_assoc,
      colonThen_append_left _ fun x hx => (scheme_char sch hsch x hx).1]
    simp [e, colonThen]

/-- A text that begins with `S://` has `S` for its scheme and the rest for host, port and
path. -/
theorem Parts.scheme_head {inp : List Char} {b : Binds} {pre hst prt pth : List Char}
    (h : Parts inp b pre hst prt pth) {S R : List Char}
    (hS : inp = S ++ ':' :: '/' :: '/' :: R) :
    capture 2 b = some S ∧ hst ++ (prt ++ pth) = R := by
  have ht := h.colonThen_tail (fun c => c == '/')
  have hd : prt.tail.head?.any (fun c => c == '/') = false := by
    obtain ⟨-, -, -, -, -, hq, -⟩ := h
    rcases hq with ⟨rfl, -⟩ | ⟨d, ds, rfl, hd, -⟩
    · rfl
    · have := (digit_char (hd d (List.mem_cons_self _ _))).2
      simp [this]
  rw [hd] at ht
  have hc : colonThen (fun c => c == '/') inp = true := by
    rw [hS]; exact colonThen_append_right _ _ (by simp [colonThen])
  have hn : capture 2 b ≠ none := by
    intro e
    rw [h.scheme_none_iff.1 e] at hc
    exact absurd hc (by decide)
  obtain ⟨hi, hs, -⟩ := h
  rcases hs with ⟨-, e⟩ | ⟨sch, hsch, rfl, e⟩
  · exact absurd e hn
  · rw [hi, List.append_assoc] at hS
    simp only [List.cons_append, List.nil_append] at hS
    rcases first_colon sch S _ _ hS fun x hx => (scheme_char sch hsch x hx).1 with
      ⟨e1, e2⟩ | ⟨m, e1, e2⟩
    · refine ⟨by rw [e, e1], ?_⟩
      simpa using e2
    · exfalso
      have h1 : colonThen (fun c => c == '/') ('/' :: '/' :: (hst ++ (prt ++ pth))) = false := by
        rw [colonThen_cons_ne _ (by decide), colonThen_cons_ne _ (by decide)]; exact ht
      rw [e2] at h1
      have h2 : colonThen (fun c => c == '/') (m ++ ':' :: '/' :: '/' :: R) = true :=
        colonThen_append_right _ _ (by simp [colonThen])
      rw [h2] at h1
      exact absurd h1 (by decide)

/-! ## Decimal numerals -/

theorem inRanges_digit (x : Char) :
    inRanges [('0', '9')] x = true ↔ 48 ≤ x.toNat ∧ x.toNat ≤ 57 := by
  have h0 : '0'.toNat = 48 := rfl
  have h9 : '9'.toNat = 57 := rfl
  simp [inRanges, h0, h9]

theorem digitsValue_fold (cs : List Char) (h : ∀ x ∈ cs, inRanges [('0', '9')] x = true) :
    ∀ a : Nat, cs.foldl (fun acc c =>
      match acc with
      | none => none
      | some n => if '0'.toNat ≤ c.toNat ∧ c.toNat ≤ '9'.toNat then some (n * 10 + (c.toNat - 48))
                  else none) (some a) = some (cs.foldl (fun n c => n * 10 + (c.toNat - 48)) a) := by
  induction cs with
  | nil => intro a; rfl
  | cons c cs ih =>
    intro a
    have hc := (inRanges_digit c).1 (h c (List.mem_cons_self _ _))
    have h0 : '0'.toNat = 48 := rfl
    have h9 : '9'.toNat = 57 := rfl
    simp only [List.foldl_cons, h0, h9, hc, and_self, if_true]
    exact ih (fun x hx => h x (List.mem_cons_of_mem _ hx)) _

theorem digitsValue_digits {cs : List Char} (hne : cs ≠ [])
    (h : ∀ x ∈ cs, inRanges [('0', '9')] x = true) : digitsValue cs = some (decimalValue cs) := by
  cases cs with
  | nil => exact absurd rfl hne
  | cons c cs => exact digitsValue_fold (c :: cs) h 0

/-- On a non-empty string of digits `Atoi` returns the number, capped at the largest
`int64`. -/
theorem Atoi_digits {cs : List Char} (hne : cs ≠ [])
    (h : ∀ x ∈ cs, inRanges [('0', '9')] x = true) :
    Atoi (String.mk cs) = if decimalValue cs ≥ 2 ^ 63 then 2 ^ 63 - 1 else (decimalValue cs : Int) := by
  cases cs with
  | nil => exact absurd rfl hne
  | cons c cs =>
    have hc := (inRanges_digit c).1 (h c (List.mem_cons_self _ _))
    have hv := digitsValue_digits hne h
    unfold Atoi
    split
    · rename_i t ht
      simp only [String.toList] at ht
      have : c = '-' := by injection ht
      subst this
      exact absurd hc (by decide)
    · rename_i t ht
      simp only [String.toList] at ht
      have : c = '+' := by injection ht
      subst this
      exact absurd hc (by decide)
    · simp only [String.toList, hv]

/-- The digits `Nat.toDigitsCore` puts in front of its accumulator. -/
theorem toDigitsCore_spec :
    ∀ (fuel n : Nat) (ds : List Char), n < fuel →
      ∃ pre, Nat.toDigitsCore 10 fuel n ds = pre ++ ds ∧ pre ≠ [] ∧
        (∀ x ∈ pre, inRanges [('0', '9')] x = true) ∧
        ∀ a : Nat, pre.foldl (fun n c => n * 10 + (c.toNat - 48)) a = a * 10 ^ pre.length + n := by
  intro fuel
  induction fuel with
  | zero => intro n ds h; omega
  | succ f ih =>
    intro n ds hn
    have hd : inRanges [('0', '9')] (Nat.digitChar (n % 10)) = true ∧
        (Nat.digitChar (n % 10)).toNat - 48 = n % 10 := by
      have : n % 10 < 10 := Nat.mod_lt _ (by decide)
      generalize n % 10 = k at this
      interval_cases k <;> decide
    by_cases h0 : n / 10 = 0
    · refine ⟨[Nat.digitChar (n % 10)], by simp [Nat.toDigitsCore, h0], by simp, ?_, ?_⟩
      · simpa using hd.1
      · intro a
        simp only [List.foldl_cons, List.foldl_nil, hd.2, List.length_singleton, pow_one]
        omega
    · have hlt : n / 10 < f := by omega
      obtain ⟨pre, e1, -, e3, e4⟩ := ih (n / 10) (Nat.digitChar (n % 10) :: ds) hlt
      refine ⟨pre ++ [Nat.digitChar (n % 10)], ?_, by simp, ?_, ?_⟩
      · simp [Nat.toDigitsCore, h0, e1]
      · intro x hx
        rcases List.mem_append.1 hx with hx | hx
        · exact e3 x hx
        · simp at hx; subst hx; exact hd.1
      · intro a
        rw [List.foldl_append, e4 a]
        simp only [List.foldl_cons, List.foldl_nil, hd.2, List.length_append,
          List.length_singleton, pow_succ]
        have := Nat.div_add_mod n 10
        nlinarith [this]

theorem repr_eq (p : Nat) : Nat.repr p = String.mk (Nat.toDigits 10 p) := rfl

/-- The decimal numeral of a number: a non-empty string of digits that denotes it. -/
theorem toDigits_spec (p : Nat) :
    Nat.toDigits 10 p ≠ [] ∧ (∀ x ∈ Nat.toDigits 10 p, inRanges [('0', '9')] x = true) ∧
      decimalValue (Nat.toDigits 10 p) = p := by
  obtain ⟨pre, e1, e2, e3, e4⟩ := toDigitsCore_spec (p + 1) p [] (by omega)
  simp only [List.append_nil] at e1
  unfold Nat.toDigits decimalValue
  rw [e1]
  exact ⟨e2, e3, by simpa using e4 0⟩

/-! ## `CheckURI` and the shape of the address -/

theorem mk_eq_empty (l : List Char) : String.mk l = "" ↔ l = [] := by
  constructor
  · intro h
    have := congrArg String.data h
    simpa using this
  · rintro rfl; rfl

theorem groupText_none {n : Nat} {b : Binds} (h : capture n b = none) : groupText n b = "" := by
  simp [groupText, h]

theorem groupText_some {n : Nat} {b : Binds} {c : List Char} (h : capture n b = some c) :
    groupText n b = String.mk c := by
  simp [groupText, h]

/-- A matched address has a winning thread, and the address has the shape `Parts`. -/
theorem CheckURI_thread {uri : String} (hm : (CheckURI uri).matched = true) :
    ∃ t pre hst prt pth, (run reExp uri.toList).head? = some t ∧
      Parts uri.toList t.2 pre hst prt pth := by
  obtain ⟨t, ht⟩ := (CheckURI_matched_iff uri).1 hm
  obtain ⟨-, pre, hst, prt, pth, hP⟩ := reExp_parts (List.mem_of_mem_head? ht)
  exact ⟨t, pre, hst, prt, pth, ht, hP⟩

theorem scheme_names : ∀ sch ∈ schemes,
    sch ≠ [] ∧ String.mk sch ∈ ["tcp", "http", "https", "ftp", "ftps"] := by decide

/-- The scheme `CheckURI` returns, from the capture of group 2. -/
theorem CheckURI_schema {uri : String} {t : Thread} {pre hst prt pth : List Char}
    (ht : (run reExp uri.toList).head? = some t) (hP : Parts uri.toList t.2 pre hst prt pth) :
    (capture 2 t.2 = none ∧ (CheckURI uri).schema = "tcp") ∨
      ∃ sch ∈ schemes, capture 2 t.2 = some sch ∧ (CheckURI uri).schema = String.mk sch := by
  rw [CheckURI_some ht]
  obtain ⟨-, hs, -⟩ := hP
  rcases hs with ⟨-, e⟩ | ⟨sch, hsch, -, e⟩
  · left
    simp [groupText_none e, e]
  · right
    refine ⟨sch, hsch, e, ?_⟩
    have hne : String.mk sch ≠ "" := fun h => (scheme_names sch hsch).1 ((mk_eq_empty sch).1 h)
    simp [groupText_some e, hne]

theorem CheckURI_schema_mem {uri : String} (hm : (CheckURI uri).matched = true) :
    (CheckURI uri).schema ∈ ["tcp", "http", "https", "ftp", "ftps"] := by
  obtain ⟨t, pre, hst, prt, pth, ht, hP⟩ := CheckURI_thread hm
  rcases CheckURI_schema ht hP with ⟨-, e⟩ | ⟨sch, hsch, -, e⟩
  · rw [e]; decide
  · rw [e]; exact (scheme_names sch hsch).2

/-- The text of group 17 as `CheckURI` reads it. -/
theorem res17_eq {uri : String} {t : Thread} (ht : (run reExp uri.toList).head? = some t) :
    (FindStringSubmatch reExp 18 uri).getD 17 "" = groupText 17 t.2 :=
  (FindStringSubmatch_some ht).2 17 (by decide) (by decide)

/-- The port `CheckURI` returns, from the capture of group 17. -/
theorem CheckURI_port {uri : String} {t : Thread} {pre hst prt pth : List Char}
    (ht : (run reExp uri.toList).head? = some t) (hP : Parts uri.toList t.2 pre hst prt pth) :
    (hasPortPart uri = false ∧ groupText 17 t.2 = "" ∧
        (CheckURI uri).port = if (CheckURI uri).schema = "https" then 443 else 80) ∨
      ∃ ds, hasPortPart uri = true ∧ ds ≠ [] ∧ (∀ x ∈ ds, inRanges [('0', '9')] x = true) ∧
        groupText 17 t.2 = String.mk ds ∧ prt = ':' :: ds ∧
        (CheckURI uri).port =
          if decimalValue ds ≥ 2 ^ 63 then 2 ^ 63 - 1 else (decimalValue ds : Int) := by
  have hiff := hP.port_none_iff
  rw [CheckURI_some ht]
  obtain ⟨-, -, -, -, -, hq, -⟩ := hP
  rcases hq with ⟨-, e⟩ | ⟨d, ds, hprt, hd, e⟩
  · left
    exact ⟨hiff.1 e, groupText_none e, by simp [groupText_none e]⟩
  · right
    have hne : String.mk (d :: ds) ≠ "" := fun h => by
      have := (mk_eq_empty _).1 h
      simp at this
    have hdig : ∀ x ∈ d :: ds, inRanges [('0', '9')] x = true := fun x hx => by
      rw [← digit_accepts]; exact hd x hx
    refine ⟨d :: ds, ?_, by simp, hdig, groupText_some e, hprt, ?_⟩
    · cases h : hasPortPart uri with
      | true => rfl
      | false => rw [hasPortPart, ← hiff, e] at h; simp at h
    · simp only [groupText_some e, hne, if_false]
      exact Atoi_digits (by simp) hdig

/-! ## Building a match -/

theorem Consumes.append {r : Regex} {inp rest : List Char} (h : Consumes r inp rest)
    (hr : r.noEot = true) (e : List Char) : Consumes r (inp ++ e) (rest ++ e) := by
  obtain ⟨b, hb⟩ := h
  exact ⟨b, run_append r hr e inp (rest, b) hb⟩

theorem Consumes.head {r : Regex} {inp rest : List Char} (h : Consumes r inp rest) :
    ∃ t, (run r inp).head? = some t := by
  obtain ⟨b, hb⟩ := h
  cases hl : run r inp with
  | nil => rw [hl] at hb; simp at hb
  | cons t ts => exact ⟨t, rfl⟩

/-- Group 1 consumes `sch://` for each of the three supported schemes. -/
theorem consumes_schemaRe (s : String) (hs : s ∈ ["tcp", "http", "https"]) (R : List Char) :
    Consumes schemaRe (s.toList ++ ':' :: '/' :: '/' :: R) R := by
  have key : ∀ l : List Char, (run schemaRe l).any (fun t => t.1.isEmpty) = true →
      Consumes schemaRe (l ++ R) R := by
    intro l hl
    rw [List.any_eq_true] at hl
    obtain ⟨t, ht, he⟩ := hl
    have h0 : Consumes schemaRe l [] := by
      refine ⟨t.2, ?_⟩
      have : t.1 = [] := by simpa using he
      rw [← this]; exact ht
    simpa using h0.append (by decide) R
  simp only [List.mem_cons, List.mem_singleton, List.not_mem_nil, or_false] at hs
  rcases hs with rfl | rfl | rfl
  · exact key "tcp://".toList (by decide)
  · exact key "http://".toList (by decide)
  · exact key "https://".toList (by decide)

/-- The port group consumes a colon followed by a non-empty string of digits. -/
theorem consumes_portRe {D : List Char} (hne : D ≠ [])
    (hD : ∀ x ∈ D, inRanges [('0', '9')] x = true) : Consumes portRe (':' :: D) [] := by
  cases D with
  | nil => exact absurd rfl hne
  | cons d ds =>
    simp only [portRe, cat, plus, digit, consumes_group, consumes_seq, consumes_lit,
      consumes_cls]
    refine ⟨d :: ds, rfl, ds, ⟨d, hD d (List.mem_cons_self _ _), rfl⟩, [], ?_⟩
    have := run_star_cls ds [] ds.length (Nat.le_refl _)
      (fun x hx => hD x (List.mem_cons_of_mem _ hx))
    simpa [run] using this

/-- The pattern matches `sch://host:digits` whenever the host group consumes `host`. -/
theorem consumes_reExp {s : String} (hs : s ∈ ["tcp", "http", "https"]) {H D : List Char}
    (hH : Consumes hostRe H []) (hne : D ≠ []) (hD : ∀ x ∈ D, inRanges [('0', '9')] x = true) :
    Consumes reExp (s.toList ++ ':' :: '/' :: '/' :: (H ++ ':' :: D)) [] := by
  unfold reExp
  simp only [cat]
  rw [consumes_seq]
  refine ⟨H ++ ':' :: D, consumes_opt.2 (Or.inl (consumes_schemaRe s hs _)), ?_⟩
  rw [consumes_seq]
  refine ⟨':' :: D, by simpa using hH.append (by decide) (':' :: D), ?_⟩
  rw [consumes_seq]
  refine ⟨[], consumes_opt.2 (Or.inl (consumes_portRe hne hD)), ?_⟩
  rw [consumes_seq]
  exact ⟨[], consumes_opt.2 (Or.inr rfl), consumes_eot.2 ⟨rfl, rfl⟩⟩

/-- An address that `CheckURI` returns whole as its host is consumed by the host group. -/
theorem host_of_CheckURI {h : String} (hm : (CheckURI h).matched = true)
    (hh : (CheckURI h).host = h) :
    Consumes hostRe h.toList [] ∧ ∀ x ∈ h.toList, hostRe.accepts x = true := by
  obtain ⟨t, pre, hst, prt, pth, ht, hP⟩ := CheckURI_thread hm
  rw [CheckURI_some ht] at hh
  obtain ⟨hi, -, h6, hx, hc, -, -⟩ := hP
  have e : hst = h.toList := by
    have : groupText 6 t.2 = h := hh
    rw [groupText_some h6] at this
    rw [← this]; rfl
  subst e
  have hl := congrArg List.length hi
  simp only [List.length_append] at hl
  have h1 : prt ++ pth = [] := by
    apply List.eq_nil_of_length_eq_zero
    simp only [List.length_append]; omega
  rw [h1] at hc
  exact ⟨by simpa using hc, hx⟩

/-- The parts of `host:digits`: the host runs up to the colon and the port is the digits. -/
theorem Parts.host_port {inp : List Char} {b : Binds} {pre hst prt pth H D : List Char}
    (hP : Parts inp b pre hst prt pth) (hR : hst ++ (prt ++ pth) = H ++ ':' :: D)
    (hH : ∀ x ∈ H, hostRe.accepts x = true)
    (hD : ∀ x ∈ D, inRanges [('0', '9')] x = true) :
    capture 6 b = some H ∧ capture 17 b = some D ∧ D ≠ [] := by
  have hplain := hP.hst_plain
  have hHp : ∀ x ∈ H, x ≠ ':' ∧ x ≠ '/' := fun x hx => host_char (hH x hx)
  obtain ⟨-, -, h6, -, -, hq, hp⟩ := hP
  rcases hq with ⟨rfl, -⟩ | ⟨d, ds, rfl, -, e17⟩
  · rcases hp with rfl | ⟨p, rfl, -⟩
    · exfalso
      simp only [List.append_nil] at hR
      exact split_first_none (p := fun c => c ≠ ':' ∧ c ≠ '/') H hst ':' D hR.symm hplain
        (by simp)
    · exfalso
      simp only [List.nil_append] at hR
      have := (split_first (p := fun c => c ≠ ':' ∧ c ≠ '/') hst H '/' ':' p D hR hplain hHp
        (by simp) (by simp)).2.1
      exact absurd this (by decide)
  · simp only [List.cons_append] at hR
    obtain ⟨e1, -, e3⟩ := split_first (p := fun c => c ≠ ':' ∧ c ≠ '/') hst H ':' ':' _ D hR
      hplain hHp (by simp) (by simp)
    rcases hp with rfl | ⟨p, rfl, -⟩
    · simp only [List.append_nil] at e3
      exact ⟨by rw [h6, e1], by rw [e17, e3], by rw [← e3]; simp⟩
    · exfalso
      have hm : '/' ∈ D := by rw [← e3]; simp
      have := hD _ hm
      exact absurd this (by decide)

theorem NewProtocol_ftp (tbl : Char → Char) :
    NewProtocol tbl "ftp" = .error "protocol ftp not support" ∧
      NewProtocol tbl "ftps" = .error "protocol ftps not support" := by
  constructor <;> rfl

theorem wrapInt64_of_range {x : Int} (h1 : -(2 ^ 63) ≤ x) (h2 : x < 2 ^ 63) : wrapInt64 x = x := by
  unfold wrapInt64
  rw [Int.emod_eq_of_lt (by omega) (by omega)]
  omega

/-- The truncated quotient of an `int64` stays in range, the pair `(-2^63, -1)` apart. -/
theorem tdiv_range {a b : Int} (ha1 : -(2 ^ 63) ≤ a) (ha2 : a < 2 ^ 63) (hb : b ≠ 0)
    (hc : ¬ (a = -(2 ^ 63) ∧ b = -1)) : -(2 ^ 63) ≤ a.tdiv b ∧ a.tdiv b < 2 ^ 63 := by
  have hn : (a.tdiv b).natAbs = a.natAbs / b.natAbs := Int.natAbs_tdiv a b
  by_cases h1 : b = 1
  · subst h1; simp; omega
  · by_cases h2 : b = -1
    · subst h2
      have : a.tdiv (-1) = -a := by rw [Int.tdiv_neg, Int.tdiv_one]
      rw [this]
      have : a ≠ -(2 ^ 63) := fun h => hc ⟨h, rfl⟩
      omega
    · have hb2 : 2 ≤ b.natAbs := by omega
      have ha : a.natAbs ≤ 2 ^ 63 := by omega
      have : a.natAbs / b.natAbs ≤ a.natAbs / 2 := Nat.div_le_div_left hb2 (by decide)
      have : a.natAbs / 2 ≤ 2 ^ 62 := by omega
      omega

/-! ## Reports and folds -/

theorem Result_Avg_some (r : Result) : ∃ d, r.Avg = some d := by
  unfold Result.Avg divInt64
  by_cases h : r.SuccessCounter = 0
  · exact ⟨0, by simp [h]⟩
  · exact ⟨wrapInt64 (r.TotalDuration.tdiv r.SuccessCounter), by simp [h]⟩

theorem render_clear (P : GoFmt) (r : Result) :
    Result.render P { r with TTLStr := "" } = Result.render P r := rfl

theorem string_append_cancel_left {a b c : String} (h : a ++ b = a ++ c) : b = c := by
  have h1 := congrArg String.data h
  simp only [String.data_append] at h1
  exact String.ext (List.append_cancel_left h1)

/-- The two labels differ, whatever follows them. -/
theorem label_ne (b : String) :
    " failed\nround-reip mim/avg/max = " ++ b ≠ " failed\nround-trip min/avg/max = " ++ b := by
  intro h
  have h2 := congrArg String.data h
  simp only [String.data_append] at h2
  exact absurd (List.append_cancel_right h2) (by decide)

theorem Fold_counters (r : Result) (o : Outcome) :
    r.Counter ≤ (Fold r o).Counter ∧ r.SuccessCounter ≤ (Fold r o).SuccessCounter ∧
      ((Fold r o).Counter - (Fold r o).SuccessCounter = r.Counter - r.SuccessCounter ∨
        (Fold r o).Counter - (Fold r o).SuccessCounter = r.Counter - r.SuccessCounter + 1) ∧
      (0 ≤ r.SuccessCounter → 0 ≤ (Fold r o).SuccessCounter) := by
  unfold Fold
  by_cases h : o.success = true
  · simp only [h, if_true]; omega
  · rw [if_neg h]; simp only []; omega

theorem foldl_Fold_counters (target : Option Target) (os : List Outcome) :
    0 ≤ (os.foldl Fold (Result.zero target)).SuccessCounter ∧
      (os.foldl Fold (Result.zero target)).SuccessCounter ≤
        (os.foldl Fold (Result.zero target)).Counter := by
  induction os using List.reverseRecOn with
  | nil => simp [Result.zero]
  | append_singleton os o ih =>
    rw [List.foldl_append]
    simp only [List.foldl_cons, List.foldl_nil]
    have := Fold_counters (os.foldl Fold (Result.zero target)) o
    omega

/-- The examples of the specification on the modelled `Fold`: five failures, and successes
of 30ms, 10ms and 50ms. -/
theorem Fold_examples :
    ((List.replicate 5 ⟨false, 0, none⟩).foldl Fold (Result.zero none)).Counter = 5 ∧
    ((List.replicate 5 ⟨false, 0, none⟩).foldl Fold (Result.zero none)).SuccessCounter = 0 ∧
    ((List.replicate 5 ⟨false, 0, none⟩).foldl Fold (Result.zero none)).Avg = some 0 ∧
    ([⟨true, 30000000, none⟩, ⟨true, 10000000, none⟩, ⟨true, 50000000, none⟩].foldl Fold
      (Result.zero none)).MinDuration = 10000000 ∧
    ([⟨true, 30000000, none⟩, ⟨true, 10000000, none⟩, ⟨true, 50000000, none⟩].foldl Fold
      (Result.zero none)).MaxDuration = 50000000 ∧
    ([⟨true, 30000000, none⟩, ⟨true, 10000000, none⟩, ⟨true, 50000000, none⟩].foldl Fold
      (Result.zero none)).Avg = some 30000000 := by
  decide

/-! ## More on threads -/

/-- Any fuel that covers the input gives the same iterations. -/
theorem starAux_fuel {step : List Char → List Thread} :
    ∀ n m inp t, inp.length ≤ m → t ∈ starAux step n inp → t ∈ starAux step m inp := by
  intro n
  induction n with
  | zero =>
    intro m inp t _ ht
    rw [mem_starAux_zero] at ht
    cases m with
    | zero => rw [mem_starAux_zero]; exact ht
    | succ m => rw [mem_starAux_succ]; exact Or.inr ht
  | succ n ih =>
    intro m inp t hm ht
    rw [mem_starAux_succ] at ht
    rcases ht with ⟨t1, h1, hl, t2, h2, rfl⟩ | h
    · cases m with
      | zero => omega
      | succ m =>
        rw [mem_starAux_succ]
        exact Or.inl ⟨t1, h1, hl, t2, ih m t1.1 t2 (by omega) h2, rfl⟩
    · cases m with
      | zero => rw [mem_starAux_zero]; exact h
      | succ m => rw [mem_starAux_succ]; exact Or.inr h

theorem starAux_restrict {P : Char → Bool} {G : List Nat} {step : List Char → List Thread}
    {e : List Char} (hsound : ∀ inp t, t ∈ step inp → Sound P G inp t)
    (hstep : ∀ inp rest b, (rest ++ e, b) ∈ step (inp ++ e) → (rest, b) ∈ step inp) :
    ∀ n inp rest b, (rest ++ e, b) ∈ starAux step n (inp ++ e) →
      (rest, b) ∈ starAux step n inp := by
  intro n
  induction n with
  | zero =>
    intro inp rest b ht
    rw [mem_starAux_zero] at ht ⊢
    simp only [Prod.mk.injEq] at ht ⊢
    exact ⟨List.append_cancel_right ht.1, ht.2⟩
  | succ n ih =>
    intro inp rest b ht
    rw [mem_starAux_succ] at ht ⊢
    rcases ht with ⟨t1, h1, hl, t2, h2, he⟩ | h
    · left
      simp only [Prod.mk.injEq] at he
      obtain ⟨he1, he2⟩ := he
      obtain ⟨c2, hc2, -, -⟩ := starAux_sound hsound n t1.1 t2 h2
      have e1 : t1.1 = (c2 ++ rest) ++ e := by rw [hc2, ← he1, List.append_assoc]
      have h1' : ((c2 ++ rest) ++ e, t1.2) ∈ step (inp ++ e) := by rw [← e1]; exact h1
      have h2' : (rest ++ e, t2.2) ∈ starAux step n ((c2 ++ rest) ++ e) := by
        rw [← e1, he1]; exact h2
      refine ⟨(c2 ++ rest, t1.2), hstep _ _ _ h1', ?_, (rest, t2.2), ih _ _ _ h2', ?_⟩
      · rw [e1] at hl
        simp only [List.length_append] at hl ⊢
        omega
      · simp only [Prod.mk.injEq]; exact ⟨trivial, he2⟩
    · right
      simp only [Prod.mk.injEq] at h ⊢
      exact ⟨List.append_cancel_right h.1, h.2⟩

/-- An expression without `$` matches a text the same way when what follows is cut off. -/
theorem run_restrict (r : Regex) (hr : r.noEot = true) (e : List Char) :
    ∀ inp rest b, (rest ++ e, b) ∈ run r (inp ++ e) → (rest, b) ∈ run r inp := by
  induction r with
  | eps =>
    intro inp rest b ht
    rw [mem_run_eps] at ht ⊢
    simp only [Prod.mk.injEq] at ht ⊢
    exact ⟨List.append_cancel_right ht.1, ht.2⟩
  | eot => simp [Regex.noEot] at hr
  | lit c =>
    intro inp rest b ht
    rw [mem_run_lit] at ht ⊢
    refine ⟨?_, ht.2⟩
    have : inp ++ e = (c :: rest) ++ e := ht.1
    exact List.append_cancel_right this
  | cls rs =>
    intro inp rest b ht
    rw [mem_run_cls] at ht ⊢
    obtain ⟨x, hx, h1, h2⟩ := ht
    refine ⟨x, hx, ?_, h2⟩
    have : inp ++ e = (x :: rest) ++ e := h1
    exact List.append_cancel_right this
  | seq a b iha ihb =>
    simp only [Regex.noEot, Bool.and_eq_true] at hr
    intro inp rest bs ht
    rw [mem_run_seq] at ht ⊢
    obtain ⟨t1, h1, t2, h2, he⟩ := ht
    simp only [Prod.mk.injEq] at he
    obtain ⟨he1, he2⟩ := he
    obtain ⟨c2, hc2, -, -⟩ := run_sound b _ _ h2
    have e1 : t1.1 = (c2 ++ rest) ++ e := by rw [hc2, ← he1, List.append_assoc]
    have h1' : ((c2 ++ rest) ++ e, t1.2) ∈ run a (inp ++ e) := by rw [← e1]; exact h1
    have h2' : (rest ++ e, t2.2) ∈ run b ((c2 ++ rest) ++ e) := by rw [← e1, he1]; exact h2
    exact ⟨(c2 ++ rest, t1.2), iha hr.1 _ _ _ h1', (rest, t2.2), ihb hr.2 _ _ _ h2',
      by simp only [Prod.mk.injEq]; exact ⟨trivial, he2⟩⟩
  | alt a b iha ihb =>
    simp only [Regex.noEot, Bool.and_eq_true] at hr
    intro inp rest bs ht
    rw [mem_run_alt] at ht ⊢
    rcases ht with h | h
    · exact Or.inl (iha hr.1 _ _ _ h)
    · exact Or.inr (ihb hr.2 _ _ _ h)
  | opt a iha =>
    simp only [Regex.noEot] at hr
    intro inp rest bs ht
    rw [mem_run_opt] at ht ⊢
    rcases ht with h | h
    · exact Or.inl (iha hr _ _ _ h)
    · right
      simp only [Prod.mk.injEq] at h ⊢
      exact ⟨List.append_cancel_right h.1, h.2⟩
  | star a iha =>
    simp only [Regex.noEot] at hr
    intro inp rest bs ht
    have h1 : (rest ++ e, bs) ∈ starAux (run a) (inp ++ e).length (inp ++ e) := ht
    have h2 := starAux_restrict (run_sound a) (iha hr) _ inp rest bs h1
    exact starAux_fuel _ inp.length inp _ (Nat.le_refl _) h2
  | group n a iha =>
    simp only [Regex.noEot] at hr
    intro inp rest bs ht
    rw [mem_run_group] at ht ⊢
    obtain ⟨t1, h1, he⟩ := ht
    simp only [Prod.mk.injEq] at he
    obtain ⟨he1, he2⟩ := he
    have h1' : (rest ++ e, t1.2) ∈ run a (inp ++ e) := by rw [he1]; exact h1
    have h3 := iha hr _ _ _ h1'
    refine ⟨(rest, t1.2), h3, ?_⟩
    obtain ⟨c, hc, -, -⟩ := run_sound a inp _ h3
    simp only [Prod.mk.injEq]
    refine ⟨trivial, ?_⟩
    rw [he2, ← he1]
    have x1 : inp.take (inp.length - rest.length) = c := by
      have : inp = c ++ rest := hc
      rw [this]; simp
    have x2 : (inp ++ e).take ((inp ++ e).length - (rest ++ e).length) = c := by
      have : inp = c ++ rest := hc
      rw [this]; simp [List.append_assoc]
    rw [x1, x2]

theorem Consumes.restrict {r : Regex} {c e : List Char} (h : Consumes r (c ++ e) e)
    (hr : r.noEot = true) : Consumes r c [] := by
  obtain ⟨b, hb⟩ := h
  exact ⟨b, run_restrict r hr e c [] b (by simpa using hb)⟩

/-- Induction over the rounds of a starred expression. -/
theorem Consumes.star_rec {X : Regex} {Q : List Char → List Char → Prop}
    (h0 : ∀ l, Q l l) (hs : ∀ a b c, Consumes X a b → Q b c → Q a c)
    {inp rest : List Char} (h : Consumes (.star X) inp rest) : Q inp rest := by
  obtain ⟨b, hb⟩ := h
  have key : ∀ n inp t, t ∈ starAux (run X) n inp → Q inp t.1 := by
    intro n
    induction n with
    | zero =>
      intro inp t ht
      rw [mem_starAux_zero] at ht; subst ht; exact h0 _
    | succ n ih =>
      intro inp t ht
      rw [mem_starAux_succ] at ht
      rcases ht with ⟨t1, h1, -, t2, h2, rfl⟩ | rfl
      · exact hs _ _ _ ⟨t1.2, h1⟩ (ih t1.1 t2 h2)
      · exact h0 _
  exact key _ _ _ hb

/-- One more round in front of a starred expression. -/
theorem Consumes.star_cons {X : Regex} {a b c : List Char} (h1 : Consumes X a b)
    (hl : b.length < a.length) (h2 : Consumes (.star X) b c) : Consumes (.star X) a c := by
  obtain ⟨b1, g1⟩ := h1
  obtain ⟨b2, g2⟩ := h2
  refine ⟨b1 ++ b2, ?_⟩
  show (c, b1 ++ b2) ∈ starAux (run X) a.length a
  cases hn : a.length with
  | zero => omega
  | succ n =>
    rw [mem_starAux_succ]
    refine Or.inl ⟨(b, b1), g1, hl, (c, b2), ?_, rfl⟩
    exact starAux_fuel _ n b _ (by omega) g2

theorem Consumes.star_nil (X : Regex) (a : List Char) : Consumes (.star X) a a := by
  refine ⟨[], ?_⟩
  show (a, []) ∈ starAux (run X) a.length a
  cases a.length with
  | zero => rw [mem_starAux_zero]
  | succ n => rw [mem_starAux_succ]; exact Or.inr rfl

/-- What `forces` promises. -/
theorem run_forces (c : Char) (r : Regex) (hr : r.forces c = true) :
    ∀ inp t, t ∈ run r inp → ∃ x, inp = x ++ t.1 ∧ c ∈ x := by
  induction r with
  | eps => simp [Regex.forces] at hr
  | eot => simp [Regex.forces] at hr
  | lit x =>
    simp only [Regex.forces, decide_eq_true_eq] at hr
    intro inp t ht
    rw [mem_run_lit] at ht
    exact ⟨[x], by rw [ht.1]; rfl, by simp [hr]⟩
  | cls rs => simp [Regex.forces] at hr
  | seq a b iha ihb =>
    simp only [Regex.forces, Bool.or_eq_true] at hr
    intro inp t ht
    rw [mem_run_seq] at ht
    obtain ⟨t1, h1, t2, h2, rfl⟩ := ht
    obtain ⟨c1, hc1, -, -⟩ := run_sound a _ _ h1
    obtain ⟨c2, hc2, -, -⟩ := run_sound b _ _ h2
    rcases hr with hr | hr
    · obtain ⟨x, hx, hm⟩ := iha hr _ _ h1
      have : x = c1 := List.append_cancel_right (hx.symm.trans hc1)
      exact ⟨c1 ++ c2, by rw [hc1, hc2, List.append_assoc], by simp [← this, hm]⟩
    · obtain ⟨x, hx, hm⟩ := ihb hr _ _ h2
      have : x = c2 := List.append_cancel_right (hx.symm.trans hc2)
      exact ⟨c1 ++ c2, by rw [hc1, hc2, List.append_assoc], by simp [← this, hm]⟩
  | alt a b iha ihb =>
    simp only [Regex.forces, Bool.and_eq_true] at hr
    intro inp t ht
    rw [mem_run_alt] at ht
    rcases ht with h | h
    · exact iha hr.1 _ _ h
    · exact ihb hr.2 _ _ h
  | opt a _ => simp [Regex.forces] at hr
  | star a _ => simp [Regex.forces] at hr
  | group n a iha =>
    simp only [Regex.forces] at hr
    intro inp t ht
    rw [mem_run_group] at ht
    obtain ⟨t1, h1, rfl⟩ := ht
    exact iha hr inp t1 h1

/-- What `endsWith` promises. -/
theorem run_endsWith (c : Char) (r : Regex) (hr : r.endsWith c = true) :
    ∀ inp t, t ∈ run r inp → ∃ x, inp = x ++ c :: t.1 := by
  induction r with
  | eps => simp [Regex.endsWith] at hr
  | eot => simp [Regex.endsWith] at hr
  | lit x =>
    simp only [Regex.endsWith, decide_eq_true_eq] at hr
    intro inp t ht
    rw [mem_run_lit] at ht
    exact ⟨[], by rw [ht.1, hr]; rfl⟩
  | cls rs => simp [Regex.endsWith] at hr
  | seq a b _ ihb =>
    simp only [Regex.endsWith] at hr
    intro inp t ht
    rw [mem_run_seq] at ht
    obtain ⟨t1, h1, t2, h2, rfl⟩ := ht
    obtain ⟨c1, hc1, -, -⟩ := run_sound a _ _ h1
    obtain ⟨x, hx⟩ := ihb hr _ _ h2
    exact ⟨c1 ++ x, by rw [hc1, hx, List.append_assoc]⟩
  | alt a b iha ihb =>
    simp only [Regex.endsWith, Bool.and_eq_true] at hr
    intro inp t ht
    rw [mem_run_alt] at ht
    rcases ht with h | h
    · exact iha hr.1 _ _ h
    · exact ihb hr.2 _ _ h
  | opt a _ => simp [Regex.endsWith] at hr
  | star a _ => simp [Regex.endsWith] at hr
  | group n a iha =>
    simp only [Regex.endsWith] at hr
    intro inp t ht
    rw [mem_run_group] at ht
    obtain ⟨t1, h1, rfl⟩ := ht
    exact iha hr inp t1 h1

/-! ## The shape determines the parts -/

theorem pathRe_eq : pathRe = group 18 (cat [lit '/', star (cls pathClass)]) := rfl

theorem Parts.shape {inp : List Char} {b : Binds} {pre hst prt pth : List Char}
    (h : Parts inp b pre hst prt pth) : Shape inp pre hst prt pth := by
  have hp := h.pth_plain
  have hh := h.hst_plain
  obtain ⟨hi, hs, -, -, -, hq, hpt⟩ := h
  refine ⟨hi, ?_, hh, ?_, ?_⟩
  · rcases hs with ⟨e, -⟩ | ⟨sch, hsch, e, -⟩
    · exact Or.inl e
    · exact Or.inr ⟨sch, hsch, e⟩
  · rcases hq with ⟨e, -⟩ | ⟨d, ds, e, hd, -⟩
    · exact Or.inl e
    · exact Or.inr ⟨d, ds, e, fun x hx => by rw [← digit_accepts]; exact hd x hx⟩
  · rcases hpt with e | ⟨p, e, -⟩
    · exact Or.inl e
    · refine Or.inr ⟨p, e, fun x hx => hp x ?_⟩
      rw [e]; exact List.mem_cons_of_mem _ hx

theorem digit_plain {x : Char} (h : inRanges [('0', '9')] x = true) : x ≠ ':' ∧ x ≠ '/' := by
  constructor <;> (rintro rfl; exact absurd h (by decide))

theorem Shape.tail_plain {inp pre hst prt pth : List Char} (h : Shape inp pre hst prt pth) :
    (prt ++ pth = [] ∨ ∃ x r, prt ++ pth = x :: r ∧ (x = ':' ∨ x = '/')) := by
  obtain ⟨-, -, -, hq, hp⟩ := h
  rcases hq with rfl | ⟨d, ds, rfl, -⟩
  · rcases hp with rfl | ⟨p, rfl, -⟩
    · exact Or.inl rfl
    · exact Or.inr ⟨'/', p, rfl, Or.inr rfl⟩
  · exact Or.inr ⟨':', d :: ds ++ pth, rfl, Or.inl rfl⟩

/-- After the scheme part no colon is followed by a slash. -/
theorem Shape.no_colon_slash {inp pre hst prt pth : List Char}
    (h : Shape inp pre hst prt pth) :
    colonThen (fun c => c == '/') (hst ++ (prt ++ pth)) = false := by
  obtain ⟨-, -, hh, hq, hp⟩ := h
  rw [colonThen_append_left _ fun x hx => (hh x hx).1]
  have hpl : ∀ x ∈ pth, x ≠ ':' := by
    rcases hp with rfl | ⟨p, rfl, hp⟩
    · simp
    · intro x hx
      rcases List.mem_cons.1 hx with rfl | hx
      · decide
      · exact hp x hx
  rcases hq with rfl | ⟨d, ds, rfl, hd⟩
  · exact colonThen_plain _ hpl
  · have hdd := (digit_plain (hd d (List.mem_cons_self _ _))).2
    have : colonThen (fun c => c == '/') (d :: (ds ++ pth)) = false := by
      apply colonThen_plain
      intro x hx
      rcases List.mem_cons.1 hx with rfl | hx
      · exact (digit_plain (hd _ (List.mem_cons_self _ _))).1
      · rcases List.mem_append.1 hx with hx | hx
        · exact (digit_plain (hd _ (List.mem_cons_of_mem _ hx))).1
        · exact hpl x hx
    simp [colonThen_cons_colon, this, hdd]

/-- The text after the scheme part is the same in two shapes of one address. -/
theorem Shape.unique_pre {inp pre hst prt pth pre2 hst2 prt2 pth2 : List Char}
    (h : Shape inp pre hst prt pth) (h2 : Shape inp pre2 hst2 prt2 pth2) :
    pre = pre2 ∧ hst ++ (prt ++ pth) = hst2 ++ (prt2 ++ pth2) := by
  have n1 := h.no_colon_slash
  have n2 := h2.no_colon_slash
  obtain ⟨hi, hs, -⟩ := h
  obtain ⟨hi2, hs2, -⟩ := h2
  have key : ∀ (sch W W2 : List Char), sch ∈ schemes →
      colonThen (fun c => c == '/') W2 = false → sch ++ [':', '/', '/'] ++ W ≠ W2 := by
    intro sch W W2 _ hW e
    rw [← e] at hW
    have : colonThen (fun c => c == '/') (sch ++ [':', '/', '/'] ++ W) = true := by
      rw [List.append_assoc]
      exact colonThen_append_right _ _ (by simp [colonThen])
    rw [this] at hW
    exact absurd hW (by decide)
  rcases hs with rfl | ⟨sch, hsch, rfl⟩ <;> rcases hs2 with rfl | ⟨sch2, hsch2, rfl⟩
  · exact ⟨rfl, by simpa using hi.symm.trans hi2⟩
  · exfalso
    exact key sch2 _ _ hsch2 n1 (by rw [← hi2, hi]; rfl)
  · exfalso
    exact key sch _ _ hsch n2 (by rw [← hi, hi2]; rfl)
  · have e := hi.symm.trans hi2
    simp only [List.append_assoc, List.cons_append, List.nil_append] at e
    rcases first_colon sch sch2 _ _ e fun x hx => (scheme_char sch hsch x hx).1 with
      ⟨e1, e2⟩ | ⟨m, e1, -⟩
    · refine ⟨by rw [e1], ?_⟩
      simpa using e2
    · exfalso
      have := (scheme_char sch2 hsch2 ':' (by rw [e1]; simp)).1
      exact this rfl

/-- Two shapes of one address have the same parts. -/
theorem Shape.unique {inp pre hst prt pth pre2 hst2 prt2 pth2 : List Char}
    (h : Shape inp pre hst prt pth) (h2 : Shape inp pre2 hst2 prt2 pth2) :
    pre = pre2 ∧ hst = hst2 ∧ prt = prt2 ∧ pth = pth2 := by
  obtain ⟨e0, eW⟩ := h.unique_pre h2
  have t1 := h.tail_plain
  have t2 := h2.tail_plain
  obtain ⟨-, -, hh, hq, hp⟩ := h
  obtain ⟨-, -, hh2, hq2, hp2⟩ := h2
  -- the host
  have eh : hst = hst2 ∧ prt ++ pth = prt2 ++ pth2 := by
    rcases t1 with e1 | ⟨x, r, e1, hx⟩ <;> rcases t2 with e2 | ⟨y, s, e2, hy⟩
    · rw [e1, e2] at eW ⊢
      exact ⟨by simpa using eW, rfl⟩
    · exfalso
      rw [e1, e2, List.append_nil] at eW
      refine split_first_none (p := fun c => c ≠ ':' ∧ c ≠ '/') hst2 hst y s eW.symm hh ?_
      rcases hy with rfl | rfl <;> simp
    · exfalso
      rw [e1, e2, List.append_nil] at eW
      refine split_first_none (p := fun c => c ≠ ':' ∧ c ≠ '/') hst hst2 x r eW hh2 ?_
      rcases hx with rfl | rfl <;> simp
    · rw [e1, e2] at eW ⊢
      obtain ⟨a1, a2, a3⟩ := split_first (p := fun c => c ≠ ':' ∧ c ≠ '/') hst hst2 x y r s eW
        hh hh2 (by rcases hx with rfl | rfl <;> simp) (by rcases hy with rfl | rfl <;> simp)
      exact ⟨a1, by rw [a2, a3]⟩
  refine ⟨e0, eh.1, ?_⟩
  have eR := eh.2
  have hpth_nd : ∀ {q : List Char}, (q = [] ∨ ∃ p, q = '/' :: p ∧ ∀ x ∈ p, x ≠ ':') →
      (q = [] ∨ ∃ r, q = '/' :: r) := by
    rintro q (rfl | ⟨p, rfl, -⟩)
    · exact Or.inl rfl
    · exact Or.inr ⟨p, rfl⟩
  rcases hq with rfl | ⟨d, ds, rfl, hd⟩ <;> rcases hq2 with rfl | ⟨d2, ds2, rfl, hd2⟩
  · exact ⟨rfl, by simpa using eR⟩
  · exfalso
    rcases hpth_nd hp with rfl | ⟨r, rfl⟩
    · simp at eR
    · simp at eR
  · exfalso
    rcases hpth_nd hp2 with rfl | ⟨r, rfl⟩
    · simp at eR
    · simp at eR
  · simp only [List.cons_append, List.cons.injEq, true_and] at eR
    have eD : d :: ds = d2 :: ds2 ∧ pth = pth2 := by
      have eR' : (d :: ds) ++ pth = (d2 :: ds2) ++ pth2 := by
        simp only [List.cons_append, List.cons.injEq]; exact eR
      rcases hpth_nd hp with rfl | ⟨r, rfl⟩ <;> rcases hpth_nd hp2 with rfl | ⟨r2, rfl⟩
      · exact ⟨by simpa using eR', rfl⟩
      · exfalso
        rw [List.append_nil] at eR'
        exact split_first_none (p := fun c => inRanges [('0', '9')] c = true) (d2 :: ds2)
          (d :: ds) '/' r2 eR'.symm hd (by decide)
      · exfalso
        rw [List.append_nil] at eR'
        exact split_first_none (p := fun c => inRanges [('0', '9')] c = true) (d :: ds)
          (d2 :: ds2) '/' r eR' hd2 (by decide)
      · obtain ⟨a1, -, a3⟩ := split_first (p := fun c => inRanges [('0', '9')] c = true)
          (d :: ds) (d2 :: ds2) '/' '/' r r2 eR' hd hd2 (by decide) (by decide)
        exact ⟨a1, by rw [a3]⟩
    exact ⟨by rw [eD.1], eD.2⟩

/-- The captures of groups 2, 6 and 17 are read off the parts. -/
theorem Parts.captures_eq {inp inp2 : List Char} {b b2 : Binds}
    {pre hst prt pth pth2 : List Char} (h : Parts inp b pre hst prt pth)
    (h2 : Parts inp2 b2 pre hst prt pth2) :
    capture 2 b = capture 2 b2 ∧ capture 6 b = capture 6 b2 ∧ capture 17 b = capture 17 b2 := by
  obtain ⟨-, hs, h6, -, -, hq, -⟩ := h
  obtain ⟨-, hs2, h62, -, -, hq2, -⟩ := h2
  refine ⟨?_, by rw [h6, h62], ?_⟩
  · rcases hs with ⟨e, c⟩ | ⟨sch, -, e, c⟩ <;> rcases hs2 with ⟨e2, c2⟩ | ⟨sch2, -, e2, c2⟩
    · rw [c, c2]
    · rw [e] at e2; simp at e2
    · rw [e2] at e; simp at e
    · rw [e] at e2
      rw [c, c2, List.append_cancel_right e2]
  · rcases hq with ⟨e, c⟩ | ⟨d, ds, e, -, c⟩ <;> rcases hq2 with ⟨e2, c2⟩ | ⟨d2, ds2, e2, -, c2⟩
    · rw [c, c2]
    · rw [e] at e2; simp at e2
    · rw [e2] at e; simp at e
    · rw [e] at e2
      simp only [List.cons.injEq, true_and] at e2
      rw [c, c2, e2.1, e2.2]

/-- Two matched addresses whose winning threads have the same scheme, host and port parts
get the same result from `CheckURI`. -/
theorem CheckURI_eq_of_parts {u v : String} {t t2 : Thread} {pre hst prt pth pth2 : List Char}
    (ht : (run reExp u.toList).head? = some t) (ht2 : (run reExp v.toList).head? = some t2)
    (h : Parts u.toList t.2 pre hst prt pth) (h2 : Parts v.toList t2.2 pre hst prt pth2) :
    CheckURI u = CheckURI v := by
  obtain ⟨c2, c6, c17⟩ := h.captures_eq h2
  rw [CheckURI_some ht, CheckURI_some ht2]
  simp only [groupText, c2, c6, c17]

/-- Group 1 consumes `sch://` for each scheme name of the pattern. -/
theorem consumes_schemaRe_all (sch : List Char) (hs : sch ∈ schemes) (R : List Char) :
    Consumes schemaRe (sch ++ ':' :: '/' :: '/' :: R) R := by
  have key : ∀ l : List Char, (run schemaRe l).any (fun t => t.1.isEmpty) = true →
      Consumes schemaRe (l ++ R) R := by
    intro l hl
    rw [List.any_eq_true] at hl
    obtain ⟨t, ht, he⟩ := hl
    have h0 : Consumes schemaRe l [] := by
      refine ⟨t.2, ?_⟩
      have : t.1 = [] := by simpa using he
      rw [← this]; exact ht
    simpa using h0.append (by decide) R
  have hall : ∀ s ∈ schemes,
      (run schemaRe (s ++ [':', '/', '/'])).any (fun t => t.1.isEmpty) = true := by decide
  have := key (sch ++ [':', '/', '/']) (hall sch hs)
  simpa using this

/-- The path group consumes a slash followed by characters of its class. -/
theorem consumes_pathRe {p : List Char} (hp : ∀ x ∈ p, inRanges pathClass x = true) :
    Consumes pathRe ('/' :: p) [] := by
  rw [pathRe_eq]
  simp only [cat, consumes_group, consumes_seq, consumes_lit]
  refine ⟨p, rfl, [], ?_⟩
  have := run_star_cls p [] p.length (Nat.le_refl _) hp
  simpa [run] using this

/-- Completeness of the shape: the pattern matches every address made of a scheme part, a
text the host group consumes, a port part and a path. -/
theorem consumes_reExp_parts {pre hst prt pth : List Char}
    (hpre : pre = [] ∨ ∃ sch ∈ schemes, pre = sch ++ [':', '/', '/'])
    (hh : Consumes hostRe hst [])
    (hprt : prt = [] ∨ ∃ D, D ≠ [] ∧ (∀ x ∈ D, inRanges [('0', '9')] x = true) ∧ prt = ':' :: D)
    (hpth : pth = [] ∨ ∃ p, (∀ x ∈ p, inRanges pathClass x = true) ∧ pth = '/' :: p) :
    Consumes reExp (pre ++ (hst ++ (prt ++ pth))) [] := by
  unfold reExp
  simp only [cat]
  rw [consumes_seq]
  refine ⟨hst ++ (prt ++ pth), ?_, ?_⟩
  · rcases hpre with rfl | ⟨sch, hsch, rfl⟩
    · exact consumes_opt.2 (Or.inr rfl)
    · refine consumes_opt.2 (Or.inl ?_)
      have := consumes_schemaRe_all sch hsch (hst ++ (prt ++ pth))
      simpa using this
  rw [consumes_seq]
  refine ⟨prt ++ pth, by simpa using hh.append (by decide) (prt ++ pth), ?_⟩
  rw [consumes_seq]
  refine ⟨pth, ?_, ?_⟩
  · rcases hprt with rfl | ⟨D, hne, hD, rfl⟩
    · exact consumes_opt.2 (Or.inr rfl)
    · refine consumes_opt.2 (Or.inl ?_)
      simpa using (consumes_portRe hne hD).append (by decide) pth
  rw [consumes_seq]
  refine ⟨[], ?_, consumes_eot.2 ⟨rfl, rfl⟩⟩
  rcases hpth with rfl | ⟨p, hp, rfl⟩
  · exact consumes_opt.2 (Or.inr rfl)
  · exact consumes_opt.2 (Or.inl (consumes_pathRe hp))

/-- The host of the parts is a text the host group consumes on its own. -/
theorem Parts.host_consumed {inp : List Char} {b : Binds} {pre hst prt pth : List Char}
    (h : Parts inp b pre hst prt pth) : Consumes hostRe hst [] :=
  (h.2.2.2.2.1).restrict (by decide)

/-- An address without colon or slash is all host. -/
theorem Shape.plain {inp pre hst prt pth : List Char} (h : Shape inp pre hst prt pth)
    (hp : ∀ x ∈ inp, x ≠ ':' ∧ x ≠ '/') : pre = [] ∧ hst = inp ∧ prt = [] ∧ pth = [] := by
  obtain ⟨hi, hs, -, hq, hpt⟩ := h
  have e1 : pre = [] := by
    rcases hs with e | ⟨sch, -, e⟩
    · exact e
    · exfalso
      exact (hp ':' (by rw [hi, e]; simp)).1 rfl
  have e2 : prt = [] := by
    rcases hq with e | ⟨d, ds, e, -⟩
    · exact e
    · exfalso
      exact (hp ':' (by rw [hi, e]; simp)).1 rfl
  have e3 : pth = [] := by
    rcases hpt with e | ⟨p, e, -⟩
    · exact e
    · exfalso
      exact (hp '/' (by rw [hi, e]; simp)).2 rfl
  refine ⟨e1, ?_, e2, e3⟩
  rw [hi, e1, e2, e3]; simp

/-! ## The host part of an address -/

theorem afterScheme_some {l w : List Char} (h : afterScheme l = some w) :
    colonThen (fun c => c == '/') l = true := by
  induction l with
  | nil => simp [afterScheme] at h
  | cons c t ih =>
    unfold afterScheme at h
    by_cases hc : c = ':' ∧ t.take 2 = ['/', '/']
    · obtain ⟨rfl, h2⟩ := hc
      cases t with
      | nil => simp at h2
      | cons d t =>
        have : d = '/' := by simp at h2; exact h2.1
        subst this
        simp [colonThen]
    · rw [if_neg hc] at h
      have := ih h
      simp [colonThen, this]

theorem afterScheme_append {a : List Char} (ha : ∀ x ∈ a, x ≠ ':') (w : List Char) :
    afterScheme (a ++ ':' :: '/' :: '/' :: w) = some w := by
  induction a with
  | nil => simp [afterScheme]
  | cons c a ih =>
    have hc : c ≠ ':' := ha c (List.mem_cons_self _ _)
    have := ih fun x hx => ha x (List.mem_cons_of_mem _ hx)
    simp [afterScheme, hc, this]

theorem takeWhile_host {h r : List Char} (hh : ∀ x ∈ h, x ≠ ':' ∧ x ≠ '/')
    (hr : r = [] ∨ ∃ x s, r = x :: s ∧ (x = ':' ∨ x = '/')) :
    (h ++ r).takeWhile (fun c => c != ':' && c != '/') = h := by
  induction h with
  | nil =>
    rcases hr with rfl | ⟨x, s, rfl, hx⟩
    · rfl
    · rcases hx with rfl | rfl <;> simp [List.takeWhile]
  | cons c h ih =>
    have hc := hh c (List.mem_cons_self _ _)
    have := ih fun x hx => hh x (List.mem_cons_of_mem _ hx)
    have hb : (c != ':' && c != '/') = true := by simp [hc.1, hc.2]
    rw [List.cons_append, List.takeWhile_cons, hb, if_pos rfl, this]

/-- The host of a shape is the host part of the address. -/
theorem Shape.hostPart_eq {uri : String} {pre hst prt pth : List Char}
    (h : Shape uri.toList pre hst prt pth) : hostPart uri = hst := by
  have n1 := h.no_colon_slash
  have tp := h.tail_plain
  obtain ⟨hi, hs, hh, -, -⟩ := h
  unfold hostPart
  rcases hs with rfl | ⟨sch, hsch, rfl⟩
  · have : afterScheme uri.toList = none := by
      cases hA : afterScheme uri.toList with
      | none => rfl
      | some w =>
        have := afterScheme_some hA
        rw [hi, List.nil_append, n1] at this
        exact absurd this (by decide)
    rw [this, Option.getD_none, hi, List.nil_append]
    exact takeWhile_host hh tp
  · have : afterScheme uri.toList = some (hst ++ (prt ++ pth)) := by
      rw [hi]
      have := afterScheme_append (fun x hx => (scheme_char sch hsch x hx).1)
        (hst ++ (prt ++ pth))
      simpa using this
    rw [this, Option.getD_some]
    exact takeWhile_host hh tp

/-- The host `CheckURI` returns is the host part of the address. -/
theorem CheckURI_host {uri : String} (hm : (CheckURI uri).matched = true) :
    (CheckURI uri).host = String.mk (hostPart uri) ∧ Consumes hostRe (hostPart uri) [] := by
  obtain ⟨t, pre, hst, prt, pth, ht, hP⟩ := CheckURI_thread hm
  rw [hP.shape.hostPart_eq, CheckURI_some ht]
  exact ⟨groupText_some hP.2.2.1, hP.host_consumed⟩

/-- The shape of a thread of `reExp`, with the path, which is the text of group 18. -/
theorem reExp_parts_path {inp : List Char} {t : Thread} (h : t ∈ run reExp inp) :
    ∃ pre hst prt pth, Parts inp t.2 pre hst prt pth ∧ (capture 18 t.2).getD [] = pth := by
  unfold reExp at h
  simp only [cat] at h
  rw [mem_run_seq] at h
  obtain ⟨t1, h1, u1, hu1, rfl⟩ := h
  have g1 := run_groups hu1
  have k1 := run_groups h1
  rw [mem_run_seq] at hu1
  obtain ⟨t2, h2, u2, hu2, rfl⟩ := hu1
  have g2 := run_groups hu2
  rw [mem_run_seq] at hu2
  obtain ⟨t3, h3, u3, hu3, rfl⟩ := hu2
  have g3 := run_groups hu3
  have k3 := run_groups h3
  rw [mem_run_seq] at hu3
  obtain ⟨t4, h4, t5, h5, rfl⟩ := hu3
  rw [mem_run_eot] at h5
  obtain ⟨h5a, rfl⟩ := h5
  obtain ⟨hst, hh1, hh2, hh3, hh4⟩ := run_hostRe h2
  -- the path
  have hpth : ∃ pth, t3.1 = pth ∧ (pth = [] ∨ ∃ p, pth = '/' :: p ∧
      ∀ x ∈ p, pathRe.accepts x = true) ∧
      (capture 18 t4.2 = some pth ∨ capture 18 t4.2 = none ∧ pth = []) := by
    rw [mem_run_opt] at h4
    rcases h4 with h4 | h4
    · obtain ⟨p, hp1, hp2, -⟩ := run_pathRe h4
      refine ⟨'/' :: p, by rw [hp1, h5a]; simp, Or.inr ⟨p, rfl, hp2⟩, Or.inl ?_⟩
      rw [pathRe_eq] at h4
      obtain ⟨c, b, -, hb, hc, -, -⟩ := run_group_capture h4
      have ec : c = '/' :: p := by
        have e : c ++ t4.1 = ('/' :: p) ++ t4.1 := by rw [← hc, hp1]
        exact List.append_cancel_right e
      rw [hb, capture_snoc, ec]
    · refine ⟨[], ?_, Or.inl rfl, Or.inr ⟨by rw [h4]; rfl, rfl⟩⟩
      rw [h4] at h5a; exact h5a
  obtain ⟨pth, hp1, hp2, hp3⟩ := hpth
  -- the port
  have hprt : ∃ prt, t2.1 = prt ++ pth ∧ (prt = [] ∧ capture 17 t3.2 = none ∨
      ∃ d ds, prt = ':' :: d :: ds ∧ (∀ x ∈ d :: ds, digit.accepts x = true) ∧
        capture 17 t3.2 = some (d :: ds)) := by
    rw [mem_run_opt] at h3
    rcases h3 with h3 | h3
    · obtain ⟨d, ds, e1, e2, e3⟩ := run_portRe h3
      exact ⟨':' :: d :: ds, by rw [e1, hp1], Or.inr ⟨d, ds, rfl, e2, e3⟩⟩
    · refine ⟨[], ?_, Or.inl ⟨rfl, ?_⟩⟩
      · rw [h3] at hp1; simpa using hp1
      · rw [h3]; rfl
  obtain ⟨prt, hq1, hq2⟩ := hprt
  -- the scheme
  have hpre : ∃ pre, inp = pre ++ t1.1 ∧ (pre = [] ∧ capture 2 t1.2 = none ∨
      ∃ sch ∈ schemes, pre = sch ++ [':', '/', '/'] ∧ capture 2 t1.2 = some sch) := by
    rw [mem_run_opt] at h1
    rcases h1 with h1 | h1
    · obtain ⟨sch, e1, e2, e3⟩ := run_schemaRe h1
      exact ⟨sch ++ [':', '/', '/'], by rw [e2]; simp, Or.inr ⟨sch, e1, rfl, e3⟩⟩
    · refine ⟨[], by rw [h1]; rfl, Or.inl ⟨rfl, ?_⟩⟩
      rw [h1]; rfl
  obtain ⟨pre, hr1, hr2⟩ := hpre
  refine ⟨pre, hst, prt, pth, ⟨?_, ?_, ?_, hh3, ?_, ?_, hp2⟩, ?_⟩
  · rw [hr1, hh1, hq1]
  · have e : capture 2 (t2.2 ++ (t3.2 ++ (t4.2 ++ []))) = none :=
      capture_of_groups g1 (by decide)
    show (_ ∧ capture 2 (t1.2 ++ (t2.2 ++ (t3.2 ++ (t4.2 ++ [])))) = none) ∨ ∃ sch ∈ schemes,
      _ ∧ capture 2 (t1.2 ++ (t2.2 ++ (t3.2 ++ (t4.2 ++ [])))) = some sch
    rw [capture_append, e]
    exact hr2
  · have e : capture 6 (t3.2 ++ (t4.2 ++ [])) = none := capture_of_groups g2 (by decide)
    show capture 6 (t1.2 ++ (t2.2 ++ (t3.2 ++ (t4.2 ++ [])))) = some hst
    rw [capture_append, capture_append, e]
    simp [hh2]
  · rw [← hq1, ← hh1]
    exact ⟨t2.2, h2⟩
  · have e : capture 17 (t4.2 ++ []) = none := capture_of_groups g3 (by decide)
    have e1 : capture 17 t1.2 = none := capture_of_groups k1 (by decide)
    have e2 : capture 17 t2.2 = none := capture_of_groups hh4 (by decide)
    show (_ ∧ capture 17 (t1.2 ++ (t2.2 ++ (t3.2 ++ (t4.2 ++ [])))) = none) ∨ ∃ d ds,
      _ ∧ _ ∧ capture 17 (t1.2 ++ (t2.2 ++ (t3.2 ++ (t4.2 ++ [])))) = some (d :: ds)
    rw [capture_append, capture_append, capture_append, e, e1, e2]
    rcases hq2 with ⟨q1, q2⟩ | ⟨d, ds, q1, q2, q3⟩
    · exact Or.inl ⟨q1, by simp [q2]⟩
    · exact Or.inr ⟨d, ds, q1, q2, by simp [q3]⟩
  · show (capture 18 (t1.2 ++ (t2.2 ++ (t3.2 ++ (t4.2 ++ []))))).getD [] = pth
    have e1 : capture 18 t1.2 = none := capture_of_groups k1 (by decide)
    have e2 : capture 18 t2.2 = none := capture_of_groups hh4 (by decide)
    have e3 : capture 18 t3.2 = none := capture_of_groups k3 (by decide)
    rw [capture_append, capture_append, capture_append, List.append_nil, e1, e2, e3]
    rcases hp3 with e | ⟨e, rfl⟩
    · simp [e]
    · simp [e]

theorem res18_eq {uri : String} {t : Thread} (ht : (run reExp uri.toList).head? = some t) :
    (FindStringSubmatch reExp 18 uri).getD 18 "" = groupText 18 t.2 :=
  (FindStringSubmatch_some ht).2 18 (by decide) (by decide)

/-! ## Dotted quads -/

/-- Each octet group consumes the decimal numerals in its range. -/
theorem octet_numerals :
    ∀ n < 256,
      (1 ≤ n → (run (group 12 (alts (octetHead ++ [cls [('1', '9')]]))) (Nat.toDigits 10 n)).any
        (fun t => t.1.isEmpty) = true) ∧
      (run (group 13 (alts (octetHead ++ [cls [('1', '9')], lit '0']))) (Nat.toDigits 10 n)).any
        (fun t => t.1.isEmpty) = true ∧
      (run (group 14 (alts (octetHead ++ [cls [('1', '9')], lit '0']))) (Nat.toDigits 10 n)).any
        (fun t => t.1.isEmpty) = true ∧
      (run (group 15 (alts (octetHead ++ [digit]))) (Nat.toDigits 10 n)).any
        (fun t => t.1.isEmpty) = true := by
  decide

theorem consumes_of_any {r : Regex} {l : List Char}
    (h : (run r l).any (fun t => t.1.isEmpty) = true) : Consumes r l [] := by
  rw [List.any_eq_true] at h
  obtain ⟨t, ht, he⟩ := h
  refine ⟨t.2, ?_⟩
  have : t.1 = [] := by simpa using he
  rw [← this]; exact ht

/-- The host group consumes every dotted quad whose first octet is not zero. -/
theorem consumes_hostRe_quad {a b c d : Nat} (ha1 : 1 ≤ a) (ha : a ≤ 255) (hb : b ≤ 255)
    (hc : c ≤ 255) (hd : d ≤ 255) :
    Consumes hostRe (Nat.toDigits 10 a ++ '.' :: (Nat.toDigits 10 b ++ '.' ::
      (Nat.toDigits 10 c ++ '.' :: Nat.toDigits 10 d))) [] := by
  have h12 := consumes_of_any ((octet_numerals a (by omega)).1 ha1)
  have h13 := consumes_of_any (octet_numerals b (by omega)).2.1
  have h14 := consumes_of_any (octet_numerals c (by omega)).2.2.1
  have h15 := consumes_of_any (octet_numerals d (by omega)).2.2.2
  unfold hostRe
  rw [consumes_group]
  simp only [alts]
  rw [consumes_alt, consumes_alt]
  refine Or.inr (Or.inr ?_)
  unfold ipv4Re
  simp only [cat]
  rw [consumes_seq]
  refine ⟨_, by simpa using h12.append (by decide) _, ?_⟩
  rw [consumes_seq]
  refine ⟨_, consumes_lit.2 rfl, ?_⟩
  rw [consumes_seq]
  refine ⟨_, by simpa using h13.append (by decide) _, ?_⟩
  rw [consumes_seq]
  refine ⟨_, consumes_lit.2 rfl, ?_⟩
  rw [consumes_seq]
  refine ⟨_, by simpa using h14.append (by decide) _, ?_⟩
  rw [consumes_seq]
  exact ⟨_, consumes_lit.2 rfl, h15⟩

/-- A matched address without colon or slash is returned whole as the host, with the
defaults `tcp` and 80. -/
theorem CheckURI_plain {uri : String} (hp : ∀ x ∈ uri.toList, x ≠ ':' ∧ x ≠ '/')
    (hc : Consumes reExp uri.toList []) :
    CheckURI uri = { schema := "tcp", host := uri, port := 80, matched := true } := by
  obtain ⟨t, ht⟩ := hc.head
  obtain ⟨-, pre, hst, prt, pth, hP⟩ := reExp_parts (List.mem_of_mem_head? ht)
  obtain ⟨e1, e2, e3, -⟩ := hP.shape.plain hp
  obtain ⟨-, hs, h6, -, -, hq, -⟩ := hP
  have c2 : capture 2 t.2 = none := by
    rcases hs with ⟨-, c⟩ | ⟨sch, -, e, -⟩
    · exact c
    · rw [e1] at e; simp at e
  have c17 : capture 17 t.2 = none := by
    rcases hq with ⟨-, c⟩ | ⟨d, ds, e, -, -⟩
    · exact c
    · rw [e3] at e; simp at e
  rw [CheckURI_some ht, groupText_none c2, groupText_none c17, groupText_some h6, e2]
  simp

theorem digits_plain {l : List Char} (h : ∀ x ∈ l, inRanges [('0', '9')] x = true) :
    ∀ x ∈ l, x ≠ ':' ∧ x ≠ '/' := fun x hx => digit_plain (h x hx)

theorem scheme_heads : ∀ sch ∈ schemes,
    String.mk (sch ++ [':', '/', '/']) ∈ ["tcp://", "http://", "https://", "ftp://", "ftps://"] := by
  decide

/-! ## The shape of the host -/

theorem DottedName.name_chars {L : List (Char × Char)} {h : List Char} (hn : DottedName L h) :
    ∀ c ∈ h, inRanges L c = true ∨ c = '.' ∨ inRanges [('a', 'z'), ('A', 'Z')] c = true := by
  obtain ⟨labels, last, -, hl, -, hlast, rfl⟩ := hn
  intro c hc
  rcases List.mem_append.1 hc with hc | hc
  · rw [List.mem_flatMap] at hc
    obtain ⟨l, hlm, hcl⟩ := hc
    rcases List.mem_append.1 hcl with h1 | h1
    · exact Or.inl ((hl l hlm).2 c h1)
    · simp at h1; exact Or.inr (Or.inl h1)
  · exact Or.inr (Or.inr (hlast c hc))

theorem DottedName.name_last {L : List (Char × Char)} {h : List Char} (hn : DottedName L h) :
    ∃ c, h.getLast? = some c ∧ inRanges [('a', 'z'), ('A', 'Z')] c = true := by
  obtain ⟨labels, last, -, -, h2, hlast, rfl⟩ := hn
  have hne : last ≠ [] := by
    intro e; rw [e] at h2; simp at h2
  refine ⟨last.getLast hne, ?_, hlast _ (List.getLast_mem hne)⟩
  rw [List.getLast?_append_of_ne_nil _ hne, List.getLast?_eq_getLast _ hne]

theorem Octet.octet_last {o : List Char} (ho : Octet o) (r : List Char) :
    ∃ c, (r ++ o).getLast? = some c ∧ inRanges [('0', '9')] c = true := by
  obtain ⟨hne, hd, -⟩ := ho
  refine ⟨o.getLast hne, ?_, hd _ (List.getLast_mem hne)⟩
  rw [List.getLast?_append_of_ne_nil _ hne, List.getLast?_eq_getLast _ hne]

theorem DottedQuad.quad_chars {h : List Char} (hq : DottedQuad h) :
    ∀ x ∈ h, inRanges [('0', '9')] x = true ∨ x = '.' := by
  obtain ⟨a, b, c, d, ha, hb, hc, hd, rfl⟩ := hq
  intro x hx
  simp only [List.mem_append, List.mem_cons] at hx
  rcases hx with hx | rfl | hx | rfl | hx | rfl | hx
  · exact Or.inl (ha.2.1 x hx)
  · exact Or.inr rfl
  · exact Or.inl (hb.2.1 x hx)
  · exact Or.inr rfl
  · exact Or.inl (hc.2.1 x hx)
  · exact Or.inr rfl
  · exact Or.inl (hd.2.1 x hx)

theorem DottedQuad.quad_last {h : List Char} (hq : DottedQuad h) :
    ∃ c, h.getLast? = some c ∧ inRanges [('0', '9')] c = true := by
  obtain ⟨a, b, c, d, -, -, -, hd, rfl⟩ := hq
  have := hd.octet_last (a ++ '.' :: (b ++ '.' :: (c ++ ['.'])))
  simpa using this

theorem inRanges_one (lo hi x : Char) :
    inRanges [(lo, hi)] x = true ↔ lo.toNat ≤ x.toNat ∧ x.toNat ≤ hi.toNat := by
  simp [inRanges]

/-- What a class followed by its star consumes. -/
theorem consumes_plus_cls {rs : List (Char × Char)} {a b : List Char}
    (h : Consumes (plus (cls rs)) a b) :
    ∃ w, w ≠ [] ∧ (∀ c ∈ w, inRanges rs c = true) ∧ a = w ++ b := by
  obtain ⟨bs, hb⟩ := h
  obtain ⟨w, hw, hx, -⟩ := run_sound _ _ _ hb
  have hc := Consumes.of_mem hb
  simp only [plus, consumes_seq, consumes_cls] at hc
  obtain ⟨mid, ⟨x, -, hx1⟩, hst⟩ := hc
  obtain ⟨c2, hc2⟩ := hst.suffix
  refine ⟨w, ?_, fun c hcw => by simpa [plus, Regex.accepts] using hx c hcw, hw⟩
  rintro rfl
  have h1 := congrArg List.length hw
  have h2 := congrArg List.length hx1
  have h3 := congrArg List.length hc2
  simp at h1 h2 h3
  omega

theorem consumes_star_cls {rs : List (Char × Char)} {a b : List Char}
    (h : Consumes (star (cls rs)) a b) :
    ∃ w, (∀ c ∈ w, inRanges rs c = true) ∧ a = w ++ b := by
  obtain ⟨bs, hb⟩ := h
  obtain ⟨w, hw, hx, -⟩ := run_sound _ _ _ hb
  exact ⟨w, fun c hcw => by simpa [Regex.accepts] using hx c hcw, hw⟩

/-- What group 7 consumes is a dotted name. -/
theorem consumes_nameRe {a b : List Char} (h : Consumes nameRe a b) :
    ∃ n, DottedName labelClass n ∧ a = n ++ b := by
  have hlabel : ∀ x y, Consumes (group 8 (cat [plus (cls labelClass), lit '.'])) x y →
      ∃ l, (l ≠ [] ∧ ∀ c ∈ l, inRanges labelClass c = true) ∧ x = (l ++ ['.']) ++ y := by
    intro x y hxy
    simp only [cat, consumes_group, consumes_seq, consumes_lit] at hxy
    obtain ⟨mid, h1, rfl⟩ := hxy
    obtain ⟨w, hne, hw, rfl⟩ := consumes_plus_cls h1
    exact ⟨w, ⟨hne, hw⟩, by simp⟩
  have hstar : ∀ x y, Consumes (star (group 8 (cat [plus (cls labelClass), lit '.']))) x y →
      ∃ ls : List (List Char), (∀ l ∈ ls, l ≠ [] ∧ ∀ c ∈ l, inRanges labelClass c = true) ∧
        x = ls.flatMap (fun l => l ++ ['.']) ++ y := by
    intro x y hxy
    refine Consumes.star_rec (Q := fun x y => ∃ ls : List (List Char),
      (∀ l ∈ ls, l ≠ [] ∧ ∀ c ∈ l, inRanges labelClass c = true) ∧
        x = ls.flatMap (fun l => l ++ ['.']) ++ y) ?_ ?_ hxy
    · intro l; exact ⟨[], by simp, by simp⟩
    · intro p q r hpq ⟨ls, hls, e⟩
      obtain ⟨l, hl, e1⟩ := hlabel p q hpq
      refine ⟨l :: ls, ?_, ?_⟩
      · intro l2 hl2
        rcases List.mem_cons.1 hl2 with rfl | hl2
        · exact hl
        · exact hls l2 hl2
      · rw [e1, e]; simp
  have hn : nameRe = group 7 (cat
      [plus (group 8 (cat [plus (cls labelClass), lit '.'])),
       atLeast 2 (cls [('a', 'z'), ('A', 'Z')])]) := rfl
  rw [hn] at h
  simp only [cat, consumes_group] at h
  rw [consumes_seq] at h
  obtain ⟨m2, h1, h2⟩ := h
  rw [plus, consumes_seq] at h1
  obtain ⟨m1, g1, g2⟩ := h1
  obtain ⟨l, hl, e1⟩ := hlabel _ _ g1
  obtain ⟨ls, hls, e2⟩ := hstar _ _ g2
  simp only [atLeast, rep, consumes_seq, consumes_cls] at h2
  obtain ⟨m3, ⟨m4, ⟨x, hx, ex⟩, y, hy, ey⟩, h3⟩ := h2
  obtain ⟨w, hw, ew⟩ := consumes_star_cls h3
  refine ⟨(l :: ls).flatMap (fun l => l ++ ['.']) ++ (x :: y :: w),
    ⟨l :: ls, x :: y :: w, by simp, ?_, by simp, ?_, rfl⟩, ?_⟩
  · intro l2 hl2
    rcases List.mem_cons.1 hl2 with rfl | hl2
    · exact hl
    · exact hls l2 hl2
  · intro c hc
    rcases List.mem_cons.1 hc with rfl | hc
    · exact hx
    · rcases List.mem_cons.1 hc with rfl | hc
      · exact hy
      · exact hw c hc
  · rw [e1, e2, ex, ey, ew]; simp

/-- One of a list of alternatives did the match. -/
theorem consumes_alts {a b : List Char} :
    ∀ rs : List Regex, rs ≠ [] → Consumes (alts rs) a b → ∃ r ∈ rs, Consumes r a b := by
  intro rs
  induction rs with
  | nil => intro h; exact absurd rfl h
  | cons r rs ih =>
    intro _ h
    cases rs with
    | nil => exact ⟨r, by simp, h⟩
    | cons r2 rs =>
      simp only [alts] at h
      rw [consumes_alt] at h
      rcases h with h | h
      · exact ⟨r, by simp, h⟩
      · obtain ⟨r3, hr3, h3⟩ := ih (by simp) h
        exact ⟨r3, List.mem_cons_of_mem _ hr3, h3⟩

/-- Each alternative of the four octet groups consumes a decimal octet. -/
theorem consumes_octet_alt {a b : List Char} :
    ∀ r ∈ octetHead ++ [cls [('1', '9')], lit '0', digit], Consumes r a b →
      ∃ o, Octet o ∧ a = o ++ b := by
  have h0 : '0'.toNat = 48 := rfl
  have h1 : '1'.toNat = 49 := rfl
  have h4 : '4'.toNat = 52 := rfl
  have h5 : '5'.toNat = 53 := rfl
  have h9 : '9'.toNat = 57 := rfl
  have dig : ∀ x : Char, 48 ≤ x.toNat → x.toNat ≤ 57 → inRanges [('0', '9')] x = true :=
    fun x ha hb => (inRanges_digit x).2 ⟨ha, hb⟩
  intro r hr h
  simp only [octetHead, List.cons_append, List.nil_append, List.mem_cons, List.mem_singleton,
    List.not_mem_nil, or_false] at hr
  rcases hr with rfl | rfl | rfl | rfl | rfl | rfl | rfl
  · simp only [cat, str, String.toList, List.map, consumes_seq, consumes_lit, consumes_cls] at h
    obtain ⟨m1, ⟨m2, rfl, rfl⟩, x, hx, rfl⟩ := h
    rw [inRanges_one, h0, h5] at hx
    refine ⟨['2', '5', x], ⟨by simp, ?_, ?_⟩, rfl⟩
    · intro c hc
      simp only [List.mem_cons, List.mem_singleton, List.not_mem_nil, or_false] at hc
      rcases hc with rfl | rfl | rfl
      · decide
      · decide
      · exact dig _ hx.1 (by omega)
    · simp [decimalValue]; omega
  · simp only [cat, digit, consumes_seq, consumes_lit, consumes_cls] at h
    obtain ⟨m1, rfl, m2, ⟨x, hx, rfl⟩, y, hy, rfl⟩ := h
    rw [inRanges_one, h0, h4] at hx
    rw [inRanges_one, h0, h9] at hy
    refine ⟨['2', x, y], ⟨by simp, ?_, ?_⟩, rfl⟩
    · intro c hc
      simp only [List.mem_cons, List.mem_singleton, List.not_mem_nil, or_false] at hc
      rcases hc with rfl | rfl | rfl
      · decide
      · exact dig _ hx.1 (by omega)
      · exact dig _ hy.1 hy.2
    · simp [decimalValue]; omega
  · simp only [cat, rep, digit, consumes_seq, consumes_cls] at h
    obtain ⟨m1, ⟨x, hx, rfl⟩, m2, ⟨y, hy, rfl⟩, z, hz, rfl⟩ := h
    rw [inRanges_one, h0, h1] at hx
    rw [inRanges_one, h0, h9] at hy hz
    refine ⟨[x, y, z], ⟨by simp, ?_, ?_⟩, rfl⟩
    · intro c hc
      simp only [List.mem_cons, List.mem_singleton, List.not_mem_nil, or_false] at hc
      rcases hc with rfl | rfl | rfl
      · exact dig _ hx.1 (by omega)
      · exact dig _ hy.1 hy.2
      · exact dig _ hz.1 hz.2
    · simp [decimalValue]; omega
  · simp only [cat, rep, digit, consumes_seq, consumes_cls] at h
    obtain ⟨m1, ⟨x, hx, rfl⟩, y, hy, rfl⟩ := h
    rw [inRanges_one, h1, h9] at hx
    rw [inRanges_one, h0, h9] at hy
    refine ⟨[x, y], ⟨by simp, ?_, ?_⟩, rfl⟩
    · intro c hc
      simp only [List.mem_cons, List.mem_singleton, List.not_mem_nil, or_false] at hc
      rcases hc with rfl | rfl
      · exact dig _ (by omega) hx.2
      · exact dig _ hy.1 hy.2
    · simp [decimalValue]; omega
  · simp only [consumes_cls] at h
    obtain ⟨x, hx, rfl⟩ := h
    rw [inRanges_one, h1, h9] at hx
    refine ⟨[x], ⟨by simp, ?_, ?_⟩, rfl⟩
    · intro c hc
      simp only [List.mem_singleton] at hc
      subst hc
      exact dig _ (by omega) hx.2
    · simp [decimalValue]; omega
  · simp only [consumes_lit] at h
    subst h
    exact ⟨['0'], ⟨by simp, by decide, by decide⟩, rfl⟩
  · simp only [digit, consumes_cls] at h
    obtain ⟨x, hx, rfl⟩ := h
    have hx2 := hx
    rw [inRanges_one, h0, h9] at hx2
    refine ⟨[x], ⟨by simp, ?_, ?_⟩, rfl⟩
    · intro c hc
      simp only [List.mem_singleton] at hc
      subst hc
      exact hx
    · simp [decimalValue]; omega

/-- A group around alternatives taken from the octet alternatives consumes an octet. -/
theorem consumes_octet_group {k : Nat} {rs : List Regex} {a b : List Char} (hne : rs ≠ [])
    (hsub : ∀ r ∈ rs, r ∈ octetHead ++ [cls [('1', '9')], lit '0', digit])
    (h : Consumes (group k (alts rs)) a b) : ∃ o, Octet o ∧ a = o ++ b := by
  rw [consumes_group] at h
  obtain ⟨r, hr, h2⟩ := consumes_alts rs hne h
  exact consumes_octet_alt r (hsub r hr) h2

/-- What the dotted-quad alternative of the host consumes is a dotted quad. -/
theorem consumes_ipv4Re {a b : List Char} (h : Consumes ipv4Re a b) :
    ∃ q, DottedQuad q ∧ a = q ++ b := by
  unfold ipv4Re at h
  simp only [cat] at h
  rw [consumes_seq] at h
  obtain ⟨m1, g1, h⟩ := h
  rw [consumes_seq] at h
  obtain ⟨m2, d1, h⟩ := h
  rw [consumes_seq] at h
  obtain ⟨m3, g2, h⟩ := h
  rw [consumes_seq] at h
  obtain ⟨m4, d2, h⟩ := h
  rw [consumes_seq] at h
  obtain ⟨m5, g3, h⟩ := h
  rw [consumes_seq] at h
  obtain ⟨m6, d3, g4⟩ := h
  rw [consumes_lit] at d1 d2 d3
  obtain ⟨o1, ho1, e1⟩ := consumes_octet_group (by simp [octetHead])
    (by simp +contextual [octetHead]) g1
  obtain ⟨o2, ho2, e2⟩ := consumes_octet_group (by simp [octetHead])
    (by simp +contextual [octetHead]) g2
  obtain ⟨o3, ho3, e3⟩ := consumes_octet_group (by simp [octetHead])
    (by simp +contextual [octetHead]) g3
  obtain ⟨o4, ho4, e4⟩ := consumes_octet_group (by simp [octetHead])
    (by simp +contextual [octetHead]) g4
  refine ⟨o1 ++ '.' :: (o2 ++ '.' :: (o3 ++ '.' :: o4)), ⟨o1, o2, o3, o4, ho1, ho2, ho3, ho4, rfl⟩,
    ?_⟩
  rw [e1, d1, e2, d2, e3, d3, e4]
  simp

/-- The host group consumes a dotted name, a dotted quad, or a text that ends in a dot. -/
theorem consumes_hostRe_shape {h : List Char} (hc : Consumes hostRe h []) :
    DottedName labelClass h ∨ DottedQuad h ∨ h.getLast? = some '.' := by
  unfold hostRe at hc
  rw [consumes_group] at hc
  simp only [alts] at hc
  rw [consumes_alt, consumes_alt] at hc
  rcases hc with hc | hc | hc
  · obtain ⟨n, hn, e⟩ := consumes_nameRe hc
    rw [List.append_nil] at e
    exact Or.inl (e ▸ hn)
  · obtain ⟨b, hb⟩ := hc
    obtain ⟨x, hx⟩ := run_endsWith '.' quadRe (by decide) _ _ hb
    refine Or.inr (Or.inr ?_)
    rw [hx]; simp
  · obtain ⟨q, hq, e⟩ := consumes_ipv4Re hc
    rw [List.append_nil] at e
    exact Or.inr (Or.inl (e ▸ hq))

/-! ## The claims -/

/-- C1. Default-port law: for a matched address, the code's test `res[17] == ""` holds
exactly when no colon of the address is followed by a digit (no explicit `:port` part), and
then the port is 443 when the returned schema is `https` and 80 for every other schema. -/
theorem CheckURI_default_port (uri : String) (hm : (CheckURI uri).matched = true) :
    ((FindStringSubmatch reExp 18 uri).getD 17 "" = "" ↔ hasPortPart uri = false) ∧
      (hasPortPart uri = false →
        (CheckURI uri).port = if (CheckURI uri).schema = "https" then 443 else 80) := by
  obtain ⟨t, pre, hst, prt, pth, ht, hP⟩ := CheckURI_thread hm
  rw [res17_eq ht]
  rcases CheckURI_port ht hP with ⟨h1, h2, h3⟩ | ⟨ds, h1, h2, -, h4, -, -⟩
  · exact ⟨by simp [h1, h2], fun _ => h3⟩
  · have hne : String.mk ds ≠ "" := fun h => h2 ((mk_eq_empty ds).1 h)
    exact ⟨by simp [h1, h4, hne], fun h => by rw [h1] at h; exact absurd h (by decide)⟩

/-- Witness for C1: `example.com` gives port 80 and `https://example.com` gives port 443. -/
theorem CheckURI_default_port_witness :
    (CheckURI "example.com").port = 80 ∧ (CheckURI "https://example.com").port = 443 :=
  ⟨((CheckURI_default_port "example.com" (by decide)).2 (by decide)).trans (by decide),
   ((CheckURI_default_port "https://example.com" (by decide)).2 (by decide)).trans (by decide)⟩

/-- C2. Round trip on a fully explicit address: if `CheckURI` matches `h` and returns it
whole as the host, then for each scheme `s` among `tcp`, `http`, `https` and each port `p`
with `1 <= p <= 65535`, `CheckURI(s ++ "://" ++ h ++ ":" ++ decimal p)` is `(s, h, p, true)`. -/
theorem CheckURI_round_trip (h s : String) (p : Nat) (hm : (CheckURI h).matched = true)
    (hh : (CheckURI h).host = h) (hs : s ∈ ["tcp", "http", "https"]) (hp1 : 1 ≤ p)
    (hp2 : p ≤ 65535) :
    CheckURI (s ++ "://" ++ h ++ ":" ++ Nat.repr p) =
      { schema := s, host := h, port := p, matched := true } := by
  obtain ⟨hH, hHx⟩ := host_of_CheckURI hm hh
  obtain ⟨hDne, hD, hDv⟩ := toDigits_spec p
  have hl : (s ++ "://" ++ h ++ ":" ++ Nat.repr p).toList =
      s.toList ++ ':' :: '/' :: '/' :: (h.toList ++ ':' :: Nat.toDigits 10 p) := by
    rw [repr_eq]; simp
  obtain ⟨t, ht⟩ := (consumes_reExp hs hH hDne hD).head
  rw [← hl] at ht
  obtain ⟨-, pre, hst, prt, pth, hP⟩ := reExp_parts (List.mem_of_mem_head? ht)
  obtain ⟨e2, hR⟩ := hP.scheme_head hl
  obtain ⟨e6, e17, -⟩ := hP.host_port hR hHx hD
  have hsne : s ≠ "" := by
    intro e; rw [e] at hs; exact absurd hs (by decide)
  have g2 : groupText 2 t.2 = s := by rw [groupText_some e2]; rfl
  have g6 : groupText 6 t.2 = h := by rw [groupText_some e6]; rfl
  have g17 : groupText 17 t.2 = String.mk (Nat.toDigits 10 p) := groupText_some e17
  have hne : String.mk (Nat.toDigits 10 p) ≠ "" := fun e => hDne ((mk_eq_empty _).1 e)
  rw [CheckURI_some ht, g2, g6, g17, if_neg hsne, if_neg hne, Atoi_digits hDne hD, hDv]
  have : ¬ p ≥ 2 ^ 63 := by omega
  rw [if_neg this]

/-- Witness for C2: `tcp://1.2.3.4:22` yields `("tcp", "1.2.3.4", 22, true)`. -/
theorem CheckURI_round_trip_witness :
    CheckURI ("tcp" ++ "://" ++ "1.2.3.4" ++ ":" ++ Nat.repr 22) =
      { schema := "tcp", host := "1.2.3.4", port := 22, matched := true } :=
  CheckURI_round_trip "1.2.3.4" "tcp" 22 (by decide) (by decide) (by decide) (by decide)
    (by decide)

/-- C3, as stated, fails: `ftp://host.com` is matched and its schema is `ftp`, which is none
of `tcp`, `http`, `https`. -/
theorem CheckURI_schema_closed_counterexample :
    ¬ ((CheckURI "ftp://host.com").matched = true →
        (CheckURI "ftp://host.com").schema ∈ ["tcp", "http", "https"]) := by
  decide

/-- C3, amended: for every matched address the returned schema is one of `tcp`, `http`,
`https`, `ftp`, `ftps`; in particular it is not empty. -/
theorem CheckURI_schema_closed (uri : String) (hm : (CheckURI uri).matched = true) :
    (CheckURI uri).schema ∈ ["tcp", "http", "https", "ftp", "ftps"] ∧
      (CheckURI uri).schema ≠ "" := by
  have h := CheckURI_schema_mem hm
  refine ⟨h, fun e => ?_⟩
  rw [e] at h
  exact absurd h (by decide)

/-- Witness for C3 amended, at `ftps://host.com`. -/
theorem CheckURI_schema_closed_witness :
    (CheckURI "ftps://host.com").schema ∈ ["tcp", "http", "https", "ftp", "ftps"] ∧
      (CheckURI "ftps://host.com").schema ≠ "" :=
  CheckURI_schema_closed "ftps://host.com" (by decide)

/-- C4, as stated, fails: `example.com:0` is matched and the returned port is 0, outside
1..65535. -/
theorem CheckURI_port_range_counterexample :
    ¬ ((CheckURI "example.com:0").matched = true →
        1 ≤ (CheckURI "example.com:0").port ∧ (CheckURI "example.com:0").port ≤ 65535) := by
  decide

/-- C4, amended: for every matched address, a port filled from the protocol default is 80
or 443 (so within 1..65535), and an explicitly supplied port is the number its digits denote,
capped at the largest `int64`; it is never negative, and it lies in 1..65535 exactly when the
digits denote such a number. -/
theorem CheckURI_port_range (uri : String) (hm : (CheckURI uri).matched = true) :
    0 ≤ (CheckURI uri).port ∧
      (hasPortPart uri = false → (CheckURI uri).port = 80 ∨ (CheckURI uri).port = 443) ∧
      (hasPortPart uri = true →
        ∃ ds, ds ≠ [] ∧ (∀ x ∈ ds, inRanges [('0', '9')] x = true) ∧
          (FindStringSubmatch reExp 18 uri).getD 17 "" = String.mk ds ∧
          (CheckURI uri).port = min (decimalValue ds : Int) (2 ^ 63 - 1) ∧
          ((1 ≤ (CheckURI uri).port ∧ (CheckURI uri).port ≤ 65535) ↔
            (1 ≤ decimalValue ds ∧ decimalValue ds ≤ 65535))) := by
  obtain ⟨t, pre, hst, prt, pth, ht, hP⟩ := CheckURI_thread hm
  rw [res17_eq ht]
  rcases CheckURI_port ht hP with ⟨h1, -, h3⟩ | ⟨ds, h1, h2, h3, h4, -, h5⟩
  · refine ⟨?_, fun _ => ?_, fun h => by rw [h1] at h; exact absurd h (by decide)⟩
    · rw [h3]; split <;> decide
    · rw [h3]; split
      · exact Or.inr rfl
      · exact Or.inl rfl
  · have hp : (CheckURI uri).port = min (decimalValue ds : Int) (2 ^ 63 - 1) := by
      rw [h5]
      split
      · rename_i h; rw [min_eq_right]; omega
      · rename_i h; rw [min_eq_left]; omega
    refine ⟨by rw [hp]; omega, fun h => by rw [h1] at h; exact absurd h (by decide),
      fun _ => ⟨ds, h2, h3, h4, hp, ?_⟩⟩
    rw [hp]
    omega

/-- Witness for C4 amended, at `example.com:99999`. -/
theorem CheckURI_port_range_witness :
    0 ≤ (CheckURI "example.com:99999").port ∧ (CheckURI "example.com:99999").port = 99999 :=
  ⟨(CheckURI_port_range "example.com:99999" (by decide)).1, by decide⟩

/-- C5. An unsupported scheme is rejected by `NewProtocol`, not by the address pattern:
for every matched address whose schema is none of `tcp`, `http`, `https`, `NewProtocol` of
that schema is an error; `ftp://host.com` is matched with schema `ftp` and host `host.com`,
and `NewProtocol("ftp")` is the error `protocol ftp not support`. -/
theorem unsupported_scheme_rejected (tbl : Char → Char) (uri : String)
    (hm : (CheckURI uri).matched = true)
    (hs : (CheckURI uri).schema ∉ ["tcp", "http", "https"]) :
    NewProtocol tbl (CheckURI uri).schema =
        .error ("protocol " ++ (CheckURI uri).schema ++ " not support") ∧
      CheckURI "ftp://host.com" = ⟨"ftp", "host.com", 80, true⟩ ∧
      NewProtocol tbl "ftp" = .error "protocol ftp not support" := by
  refine ⟨?_, by decide, (NewProtocol_ftp tbl).1⟩
  have h := CheckURI_schema_mem hm
  simp only [List.mem_cons, List.mem_singleton, List.not_mem_nil, or_false, not_or] at h hs
  rcases h with h | h | h | h | h
  · exact absurd h hs.1
  · exact absurd h hs.2.1
  · exact absurd h hs.2.2
  · rw [h]; exact (NewProtocol_ftp tbl).1
  · rw [h]; exact (NewProtocol_ftp tbl).2

/-- Witness for C5, at `ftp://host.com`. -/
theorem unsupported_scheme_rejected_witness :
    NewProtocol id (CheckURI "ftp://host.com").schema =
      .error ("protocol " ++ (CheckURI "ftp://host.com").schema ++ " not support") :=
  (unsupported_scheme_rejected id "ftp://host.com" (by decide) (by decide)).1

/-- C6. Unparseable input yields the empty result: when the backtracking search of the
pattern has no successful thread on the address, `FindStringSubmatch` returns the empty
slice and `CheckURI` returns schema `""`, host `""`, port 0 and matched false. -/
theorem CheckURI_unparseable (uri : String) (h : run reExp uri.toList = []) :
    FindStringSubmatch reExp 18 uri = [] ∧
      CheckURI uri = { schema := "", host := "", port := 0, matched := false } := by
  have hh : (run reExp uri.toList).head? = none := by rw [h]; rfl
  exact ⟨FindStringSubmatch_none hh, CheckURI_none hh⟩

/-- Witness for C6: `not a host!!` is not matched. -/
theorem CheckURI_unparseable_witness :
    (CheckURI "not a host!!").matched = false := by
  rw [(CheckURI_unparseable "not a host!!" (by decide)).2]

/-- C7. Scheme defaulting: a matched address that does not contain `://` has schema `tcp`,
and a matched address that begins with `s://` has schema exactly `s`. -/
theorem CheckURI_scheme_default (uri : String) (hm : (CheckURI uri).matched = true) :
    (¬ "://".toList <:+: uri.toList → (CheckURI uri).schema = "tcp") ∧
      ∀ s rest : String, uri = s ++ "://" ++ rest → (CheckURI uri).schema = s := by
  obtain ⟨t, pre, hst, prt, pth, ht, hP⟩ := CheckURI_thread hm
  constructor
  · intro hno
    rcases CheckURI_schema ht hP with ⟨-, e⟩ | ⟨sch, hsch, e1, -⟩
    · exact e
    · exfalso
      apply hno
      obtain ⟨hi, hs, -⟩ := hP
      rcases hs with ⟨-, e⟩ | ⟨sch2, -, rfl, -⟩
      · rw [e] at e1; exact absurd e1 (by simp)
      · exact ⟨sch2, hst ++ (prt ++ pth), by rw [hi]; simp⟩
  · intro s rest hu
    have hl : uri.toList = s.toList ++ ':' :: '/' :: '/' :: rest.toList := by
      rw [hu]; simp
    obtain ⟨e2, -⟩ := hP.scheme_head hl
    rcases CheckURI_schema ht hP with ⟨e, -⟩ | ⟨sch, hsch, e1, e⟩
    · rw [e] at e2; exact absurd e2 (by simp)
    · rw [e1] at e2
      rw [e, Option.some.inj e2]
      rfl

/-- Witness for C7: `example.com` has schema `tcp`, `https://example.com` has schema `https`. -/
theorem CheckURI_scheme_default_witness :
    (CheckURI "example.com").schema = "tcp" ∧ (CheckURI "https://example.com").schema = "https" :=
  ⟨(CheckURI_scheme_default "example.com" (by decide)).1 (by decide),
   (CheckURI_scheme_default "https://example.com" (by decide)).2 "https" "example.com" (by decide)⟩

/-- C8. `NewProtocol` is a validated constructor over a closed set, case-insensitive through
`strings.ToLower`: it succeeds exactly when the lowercase form of its argument is `tcp`,
`http` or `https`; the protocol it returns prints as that lowercase form; every other string
yields the error `protocol <s> not support`. -/
theorem NewProtocol_closed (tbl : Char → Char) (s : String) :
    ((∃ p, NewProtocol tbl s = .ok p) ↔ ToLower tbl s ∈ ["tcp", "http", "https"]) ∧
      (∀ p, NewProtocol tbl s = .ok p →
        Protocol.String p = ToLower tbl s ∧ (p = TCP ∨ p = HTTP ∨ p = HTTPS)) ∧
      (ToLower tbl s ∉ ["tcp", "http", "https"] →
        NewProtocol tbl s = .error ("protocol " ++ s ++ " not support")) ∧
      NewProtocol tbl "HTTPS" = .ok HTTPS ∧ NewProtocol tbl "Tcp" = .ok TCP := by
  have e1 : Protocol.String TCP = "tcp" := rfl
  have e2 : Protocol.String HTTP = "http" := rfl
  have e3 : Protocol.String HTTPS = "https" := rfl
  refine ⟨?_, ?_, ?_, rfl, rfl⟩
  · unfold NewProtocol
    simp only [e1, e2, e3, List.mem_cons, List.mem_singleton, List.not_mem_nil, or_false]
    by_cases h1 : ToLower tbl s = "tcp"
    · simp [h1]
    · by_cases h2 : ToLower tbl s = "http"
      · simp [h2]
      · by_cases h3 : ToLower tbl s = "https"
        · simp [h3]
        · simp [h1, h2, h3]
  · intro p hp
    unfold NewProtocol at hp
    simp only [e1, e2, e3] at hp
    by_cases h1 : ToLower tbl s = "tcp"
    · simp [h1] at hp; subst hp; exact ⟨by rw [h1, e1], Or.inl rfl⟩
    · by_cases h2 : ToLower tbl s = "http"
      · simp [h2] at hp; subst hp; exact ⟨by rw [h2, e2], Or.inr (Or.inl rfl)⟩
      · by_cases h3 : ToLower tbl s = "https"
        · simp [h3] at hp; subst hp; exact ⟨by rw [h3, e3], Or.inr (Or.inr rfl)⟩
        · simp [h1, h2, h3] at hp
  · intro h
    simp only [List.mem_cons, List.mem_singleton, List.not_mem_nil, or_false, not_or] at h
    unfold NewProtocol
    simp [e1, e2, e3, h.1, h.2.1, h.2.2]

/-- C9. Protocol string round trip: for each of `TCP`, `HTTP`, `HTTPS`, `NewProtocol` of its
`String()` returns it with no error, and the three `String()` values are pairwise distinct. -/
theorem Protocol_round_trip (tbl : Char → Char) (p : Protocol)
    (hp : p = TCP ∨ p = HTTP ∨ p = HTTPS) :
    NewProtocol tbl (Protocol.String p) = .ok p ∧
      Protocol.String TCP ≠ Protocol.String HTTP ∧
      Protocol.String TCP ≠ Protocol.String HTTPS ∧
      Protocol.String HTTP ≠ Protocol.String HTTPS := by
  refine ⟨?_, by decide, by decide, by decide⟩
  rcases hp with rfl | rfl | rfl <;> rfl

/-- Witness for C9, at `HTTPS`. -/
theorem Protocol_round_trip_witness :
    NewProtocol id (Protocol.String HTTPS) = .ok HTTPS :=
  (Protocol_round_trip id HTTPS (Or.inr (Or.inr rfl))).1

/-- C10. `Result.Avg` is total and never divides by zero: it returns 0 when
`SuccessCounter == 0` and otherwise Go's quotient `TotalDuration / SuccessCounter`, which is
the quotient truncated toward zero for every `int64` total (the one overflowing pair
`(-2^63, -1)` apart, where Go wraps around).  `TotalDuration` = 90ms with `SuccessCounter` = 3
gives 30ms; `Counter` = 5 with `SuccessCounter` = 0 gives 0. -/
theorem Result_Avg (r : Result) :
    (∃ d, r.Avg = some d) ∧
      (r.SuccessCounter = 0 → r.Avg = some 0) ∧
      (r.SuccessCounter ≠ 0 →
        r.Avg = some (wrapInt64 (r.TotalDuration.tdiv r.SuccessCounter)) ∧
        (-(2 ^ 63) ≤ r.TotalDuration → r.TotalDuration < 2 ^ 63 →
          ¬ (r.TotalDuration = -(2 ^ 63) ∧ r.SuccessCounter = -1) →
          r.Avg = some (r.TotalDuration.tdiv r.SuccessCounter))) ∧
      Result.Avg { Counter := 3, SuccessCounter := 3, Target := none, TTLStr := "",
                   MinDuration := 10000000, MaxDuration := 50000000,
                   TotalDuration := 90000000 } = some 30000000 ∧
      Result.Avg { Counter := 5, SuccessCounter := 0, Target := none, TTLStr := "",
                   MinDuration := 0, MaxDuration := 0, TotalDuration := 0 } = some 0 := by
  refine ⟨?_, ?_, ?_, by decide, by decide⟩
  · unfold Result.Avg divInt64
    by_cases h : r.SuccessCounter = 0
    · exact ⟨0, by simp [h]⟩
    · exact ⟨wrapInt64 (r.TotalDuration.tdiv r.SuccessCounter), by simp [h]⟩
  · intro h
    simp [Result.Avg, h]
  · intro h
    have e : r.Avg = some (wrapInt64 (r.TotalDuration.tdiv r.SuccessCounter)) := by
      simp [Result.Avg, divInt64, h]
    refine ⟨e, fun h1 h2 h3 => ?_⟩
    obtain ⟨b1, b2⟩ := tdiv_range h1 h2 h h3
    rw [e, wrapInt64_of_range b1 b2]

/-- C12. The report `Result.String` returns is not the one the specification words: for
every result with an empty tag, the third line is labelled `round-reip mim/avg/max`, where
the specification has `round-trip min/avg/max`, so the two texts differ, whatever the library
prints for the numbers and durations. -/
theorem Result_String_label (P : GoFmt) (r : Result) :
    Result.String P { r with TTLStr := "" } ≠ reportShape P { r with TTLStr := "" } ∧
      ∃ a b, Result.String P r = a ++ " failed\nround-reip mim/avg/max = " ++ b := by
  obtain ⟨d, hd⟩ := Result_Avg_some r
  have hd2 : Result.Avg { r with TTLStr := "" } = some d := hd
  constructor
  · unfold Result.String reportShape Result.render
    simp only [hd2, Option.getD_some, String.empty_append, String.append_assoc]
    intro h
    iterate 8 replace h := string_append_cancel_left h
    exact label_ne _ h
  · unfold Result.String Result.render
    simp only [hd, String.append_assoc]
    exact ⟨r.TTLStr ++ ("--- " ++ (htmlEscape (targetText r.Target) ++
      (" ping statistics ---\n" ++ (htmlEscape (formatInt r.Counter) ++ (" responses, " ++
      (htmlEscape (formatInt r.SuccessCounter) ++ (" ok, " ++ htmlEscape (r.Failed P)))))))),
      htmlEscape (P.duration r.MinDuration) ++ ("/" ++ (htmlEscape (P.duration d) ++
      ("/" ++ htmlEscape (P.duration r.MaxDuration)))), by simp only [String.append_assoc]⟩

/-- C13. The diagnostic tag is prepended verbatim: `String()` of a result is its `TTLStr`
followed by `String()` of the same result with an empty `TTLStr`; the tag is outside the
template, so nothing escapes or trims it, and an empty tag adds nothing. -/
theorem Result_String_tag (P : GoFmt) (r : Result) :
    Result.String P r = r.TTLStr ++ Result.String P { r with TTLStr := "" } ∧
      (r.TTLStr = "" → Result.String P r = Result.render P r) := by
  constructor
  · unfold Result.String
    rw [render_clear, String.empty_append]
  · intro h
    unfold Result.String
    rw [h]; simp

/-- C14. Fold monotonicity, on the `Fold` modelled from the specification: after folding any
sequence of outcomes into a zero-valued result, `successCounter <= counter` (and
`successCounter` is not negative); and a `Fold` call never decreases `counter` or
`successCounter`. -/
theorem Fold_monotone (target : Option Target) (os : List Outcome) (o : Outcome) :
    (os.foldl Fold (Result.zero target)).SuccessCounter ≤
        (os.foldl Fold (Result.zero target)).Counter ∧
      (os.foldl Fold (Result.zero target)).Counter ≤
        (Fold (os.foldl Fold (Result.zero target)) o).Counter ∧
      (os.foldl Fold (Result.zero target)).SuccessCounter ≤
        (Fold (os.foldl Fold (Result.zero target)) o).SuccessCounter ∧
      (Fold (os.foldl Fold (Result.zero target)) o).SuccessCounter ≤
        (Fold (os.foldl Fold (Result.zero target)) o).Counter := by
  have h1 := foldl_Fold_counters target os
  have h2 := Fold_counters (os.foldl Fold (Result.zero target)) o
  have h3 := foldl_Fold_counters target (os ++ [o])
  rw [List.foldl_append] at h3
  simp only [List.foldl_cons, List.foldl_nil] at h3
  exact ⟨h1.2, h2.1, h2.2.1, h3.2⟩

/-- C15, as stated, fails: `a_b.com` is matched and returned as the host, and its first
label has an underscore; `12.34.56.78.` is matched and returned as the host, and it ends in
a dot.  Neither host is a dotted name of alphanumerics and hyphens or a dotted quad. -/
theorem CheckURI_host_shape_counterexample :
    ¬ ((CheckURI "a_b.com").matched = true →
        DottedName alnumHyphen (CheckURI "a_b.com").host.toList ∨
          DottedQuad (CheckURI "a_b.com").host.toList) ∧
    ¬ ((CheckURI "12.34.56.78.").matched = true →
        DottedName alnumHyphen (CheckURI "12.34.56.78.").host.toList ∨
          DottedQuad (CheckURI "12.34.56.78.").host.toList) := by
  have e1 : (CheckURI "a_b.com").host = "a_b.com" := by decide
  have e2 : (CheckURI "12.34.56.78.").host = "12.34.56.78." := by decide
  constructor
  · intro h
    rw [e1] at h
    rcases h (by decide) with hn | hq
    · have := hn.name_chars '_' (by decide)
      revert this; decide
    · have := hq.quad_chars '_' (by decide)
      revert this; decide
  · intro h
    rw [e2] at h
    rcases h (by decide) with hn | hq
    · obtain ⟨c, hc1, hc2⟩ := hn.name_last
      have : c = '.' := by
        have h3 : "12.34.56.78.".toList.getLast? = some '.' := by decide
        rw [h3] at hc1; exact (Option.some.inj hc1).symm
      subst this
      exact absurd hc2 (by decide)
    · obtain ⟨c, hc1, hc2⟩ := hq.quad_last
      have : c = '.' := by
        have h3 : "12.34.56.78.".toList.getLast? = some '.' := by decide
        rw [h3] at hc1; exact (Option.some.inj hc1).symm
      subst this
      exact absurd hc2 (by decide)

/-- C15, amended: for every matched address whose returned host does not end in a dot, the
host is either a dotted name (labels of alphanumerics, hyphens or underscores separated by
dots, with a final label of at least two letters) or a dotted quad (four decimal octets,
each in 0..255, separated by single dots). -/
theorem CheckURI_host_shape (uri : String) (hm : (CheckURI uri).matched = true)
    (hdot : (CheckURI uri).host.toList.getLast? ≠ some '.') :
    DottedName labelClass (CheckURI uri).host.toList ∨ DottedQuad (CheckURI uri).host.toList := by
  obtain ⟨e, hc⟩ := CheckURI_host hm
  rw [e] at hdot ⊢
  rcases consumes_hostRe_shape hc with h | h | h
  · exact Or.inl h
  · exact Or.inr h
  · exact absurd h hdot

/-- Witness for C15 amended, at `a_b.com` and `10.0.0.5`. -/
theorem CheckURI_host_shape_witness :
    (DottedName labelClass (CheckURI "a_b.com").host.toList ∨
        DottedQuad (CheckURI "a_b.com").host.toList) ∧
      (DottedName labelClass (CheckURI "10.0.0.5").host.toList ∨
        DottedQuad (CheckURI "10.0.0.5").host.toList) :=
  ⟨CheckURI_host_shape "a_b.com" (by decide) (by decide),
   CheckURI_host_shape "10.0.0.5" (by decide) (by decide)⟩

/-- C16, as stated, fails: the dotted quad `0.1.2.3` is not matched. -/
theorem CheckURI_dotted_quad_counterexample :
    ¬ (CheckURI (Nat.repr 0 ++ "." ++ Nat.repr 1 ++ "." ++ Nat.repr 2 ++ "." ++ Nat.repr 3) =
      { schema := "tcp", host := "0.1.2.3", port := 80, matched := true }) := by
  decide

/-- C16, amended: for all octets `a` in 1..255 and `b`, `c`, `d` in 0..255 written in
decimal without leading zeros, `CheckURI("a.b.c.d")` returns `("tcp", "a.b.c.d", 80, true)`. -/
theorem CheckURI_dotted_quad (a b c d : Nat) (ha1 : 1 ≤ a) (ha : a ≤ 255) (hb : b ≤ 255)
    (hc : c ≤ 255) (hd : d ≤ 255) :
    CheckURI (Nat.repr a ++ "." ++ Nat.repr b ++ "." ++ Nat.repr c ++ "." ++ Nat.repr d) =
      { schema := "tcp",
        host := Nat.repr a ++ "." ++ Nat.repr b ++ "." ++ Nat.repr c ++ "." ++ Nat.repr d,
        port := 80, matched := true } := by
  have hl : (Nat.repr a ++ "." ++ Nat.repr b ++ "." ++ Nat.repr c ++ "." ++ Nat.repr d).toList =
      Nat.toDigits 10 a ++ '.' :: (Nat.toDigits 10 b ++ '.' ::
        (Nat.toDigits 10 c ++ '.' :: Nat.toDigits 10 d)) := by
    simp [repr_eq]
  apply CheckURI_plain
  · rw [hl]
    intro x hx
    simp only [List.mem_append, List.mem_cons] at hx
    have hdot : ('.' : Char) ≠ ':' ∧ ('.' : Char) ≠ '/' := by decide
    rcases hx with hx | rfl | hx | rfl | hx | rfl | hx
    · exact digits_plain (toDigits_spec a).2.1 x hx
    · exact hdot
    · exact digits_plain (toDigits_spec b).2.1 x hx
    · exact hdot
    · exact digits_plain (toDigits_spec c).2.1 x hx
    · exact hdot
    · exact digits_plain (toDigits_spec d).2.1 x hx
  · rw [hl]
    have := @consumes_reExp_parts [] _ [] [] (Or.inl rfl)
      (consumes_hostRe_quad ha1 ha hb hc hd) (Or.inl rfl) (Or.inl rfl)
    simpa using this

/-- Witness for C16 amended: `10.0.0.5`. -/
theorem CheckURI_dotted_quad_witness :
    CheckURI (Nat.repr 10 ++ "." ++ Nat.repr 0 ++ "." ++ Nat.repr 0 ++ "." ++ Nat.repr 5) =
      { schema := "tcp", host := "10.0.0.5", port := 80, matched := true } :=
  CheckURI_dotted_quad 10 0 0 5 (by decide) (by decide) (by decide) (by decide) (by decide)

/-- C17. The path suffix is discarded: if `CheckURI` matches `u` with no path (group 18
empty) and `s` starts with a slash and is made of characters of the path class, then
`CheckURI(u ++ s)` returns exactly what `CheckURI(u)` returns. -/
theorem CheckURI_path_discarded (u s : String) (hm : (CheckURI u).matched = true)
    (h18 : (FindStringSubmatch reExp 18 u).getD 18 "" = "")
    (hs : s.toList.head? = some '/') (hc : ∀ x ∈ s.toList, inRanges pathClass x = true) :
    CheckURI (u ++ s) = CheckURI u := by
  obtain ⟨t, ht⟩ := (CheckURI_matched_iff u).1 hm
  obtain ⟨pre, hst, prt, pth, hP, h18c⟩ := reExp_parts_path (List.mem_of_mem_head? ht)
  have hpth : pth = [] := by
    rw [res18_eq ht, groupText, h18c] at h18
    exact (mk_eq_empty pth).1 h18
  subst hpth
  obtain ⟨p, hp⟩ : ∃ p, s.toList = '/' :: p := by
    cases hl : s.toList with
    | nil => rw [hl] at hs; simp at hs
    | cons x p =>
      rw [hl] at hs
      simp only [List.head?_cons, Option.some.injEq] at hs
      exact ⟨p, by rw [hs]⟩
  have hsh := hP.shape
  -- the longer address is matched
  have hcons : Consumes reExp (pre ++ (hst ++ (prt ++ s.toList))) [] := by
    refine consumes_reExp_parts hsh.2.1 hP.host_consumed ?_ (Or.inr ⟨p, ?_, hp⟩)
    · rcases hsh.2.2.2.1 with e | ⟨d, ds, e, hd⟩
      · exact Or.inl e
      · exact Or.inr ⟨d :: ds, by simp, hd, e⟩
    · intro x hx
      exact hc x (by rw [hp]; exact List.mem_cons_of_mem _ hx)
  have hl : (u ++ s).toList = pre ++ (hst ++ (prt ++ s.toList)) := by
    have := hsh.1
    simp only [String.toList, String.data_append] at this ⊢
    rw [this]; simp
  rw [← hl] at hcons
  obtain ⟨t2, ht2⟩ := hcons.head
  obtain ⟨-, pre2, hst2, prt2, pth2, hP2⟩ := reExp_parts (List.mem_of_mem_head? ht2)
  -- its parts are those of the shorter one, with the path added
  have hsh2 : Shape (u ++ s).toList pre hst prt s.toList := by
    refine ⟨hl, hsh.2.1, hsh.2.2.1, hsh.2.2.2.1, Or.inr ⟨p, hp, fun x hx => ?_⟩⟩
    have := hc x (by rw [hp]; exact List.mem_cons_of_mem _ hx)
    rintro rfl
    exact absurd this (by decide)
  obtain ⟨e1, e2, e3, -⟩ := hP2.shape.unique hsh2
  subst e1 e2 e3
  exact CheckURI_eq_of_parts ht2 ht hP2 hP

/-- Witness for C17: `https://example.com:8443/health` and `https://example.com:8443` both
yield `("https", "example.com", 8443, true)`. -/
theorem CheckURI_path_discarded_witness :
    CheckURI ("https://example.com:8443" ++ "/health") = CheckURI "https://example.com:8443" ∧
      CheckURI "https://example.com:8443" =
        { schema := "https", host := "example.com", port := 8443, matched := true } :=
  ⟨CheckURI_path_discarded "https://example.com:8443" "/health" (by decide) (by decide)
    (by decide) (by decide), by decide⟩

/-- C18. Single-label hosts are rejected: an address whose host part (the text after the
scheme separator, up to the first colon or slash) contains no dot is not matched. -/
theorem CheckURI_single_label (uri : String) (h : '.' ∉ hostPart uri) :
    (CheckURI uri).matched = false := by
  cases hm : (CheckURI uri).matched with
  | false => rfl
  | true =>
    exfalso
    obtain ⟨b, hb⟩ := (CheckURI_host hm).2
    obtain ⟨x, hx, hdot⟩ := run_forces '.' hostRe (by decide) _ _ hb
    apply h
    rw [hx]
    simpa using hdot

/-- Witness for C18: `localhost`, `localhost:8080` and `https://host` are not matched. -/
theorem CheckURI_single_label_witness :
    (CheckURI "localhost").matched = false ∧ (CheckURI "localhost:8080").matched = false ∧
      (CheckURI "https://host").matched = false :=
  ⟨CheckURI_single_label "localhost" (by decide),
   CheckURI_single_label "localhost:8080" (by decide),
   CheckURI_single_label "https://host" (by decide)⟩

/-- C19. Scheme matching is case-sensitive and closed: a matched address that contains
`://` begins with one of the lowercase texts `tcp://`, `http://`, `https://`, `ftp://`,
`ftps://`; `HTTP://example.com` is not matched although `NewProtocol("HTTP")` succeeds. -/
theorem CheckURI_scheme_closed (tbl : Char → Char) (uri : String)
    (hc : "://".toList <:+: uri.toList) (hm : (CheckURI uri).matched = true) :
    (∃ p ∈ ["tcp://", "http://", "https://", "ftp://", "ftps://"], p.toList <+: uri.toList) ∧
      (CheckURI "HTTP://example.com").matched = false ∧ NewProtocol tbl "HTTP" = .ok HTTP := by
  refine ⟨?_, by decide, rfl⟩
  obtain ⟨t, pre, hst, prt, pth, ht, hP⟩ := CheckURI_thread hm
  obtain ⟨A, B, hAB⟩ := hc
  have hct : colonThen (fun c => c == '/') uri.toList = true := by
    rw [← hAB, List.append_assoc]
    exact colonThen_append_right _ _ (by simp [colonThen])
  have hn : capture 2 t.2 ≠ none := by
    intro e
    rw [hP.scheme_none_iff.1 e] at hct
    exact absurd hct (by decide)
  obtain ⟨hi, hs, -⟩ := hP
  rcases hs with ⟨-, e⟩ | ⟨sch, hsch, rfl, -⟩
  · exact absurd e hn
  · exact ⟨String.mk (sch ++ [':', '/', '/']), scheme_heads sch hsch, hst ++ (prt ++ pth),
      hi.symm⟩

/-- Witness for C19, at `ftp://host.com`. -/
theorem CheckURI_scheme_closed_witness :
    ∃ p ∈ ["tcp://", "http://", "https://", "ftp://", "ftps://"],
      p.toList <+: "ftp://host.com".toList :=
  (CheckURI_scheme_closed id "ftp://host.com" (by decide) (by decide)).1

end Ping
